import Mathlib

/-!
Verification of the multipass-app-source developer tooling layer:
the consistency verification engine (`verify_documentation.py`,
`check_rules.py`), the session checkpoint subsystem
(`generate_checkpoint.py`, `restore_checkpoint.py`) and the bootstrap
verifier (`bootstrap_context.py`).

Text is modelled as lists of characters (`Str`); a document is a list of
lines (`List Str`), the result of splitting the file content at newline
characters.  Regular-expression scans from the Python sources are
embedded as executable character-list scanners that follow the
backtracking semantics of the concrete patterns involved.
-/

namespace Multipass

/-- Character-list view of a string literal. -/
def cs (s : String) : List Char := s.toList

/-- Text is a list of characters. -/
abbrev Str := List Char

/-- ASCII reading of Python's `\w` word-character class
(letters, digits, underscore). -/
def isWordChar (c : Char) : Bool := c.isAlpha || c.isDigit || c = '_'

/-- Python `\s` whitespace class (space, tab, CR, LF as covered by
`Char.isWhitespace`). -/
def isWS (c : Char) : Bool := c.isWhitespace

/-- Leading and trailing whitespace removed (Python `str.strip`). -/
def trimStr (l : Str) : Str :=
  ((l.dropWhile isWS).reverse.dropWhile isWS).reverse

/-- Whether `pat` occurs as a contiguous substring of `s`. -/
def containsSub (s pat : Str) : Bool :=
  pat.isPrefixOf s ||
    match s with
    | [] => false
    | _ :: t => containsSub t pat

/-- Split `s` at the first occurrence of `pat`: the part before the
occurrence and the part after it.  `none` when `pat` does not occur. -/
def splitAtFirst (pat s : Str) : Option (Str × Str) :=
  if pat.isPrefixOf s then some ([], s.drop pat.length)
  else
    match s with
    | [] => none
    | c :: t =>
      match splitAtFirst pat t with
      | some (a, b) => some (c :: a, b)
      | none => none

theorem containsSub_nil (pat : Str) (h : pat ≠ []) : containsSub [] pat = false := by
  cases pat with
  | nil => exact absurd rfl h
  | cons c t => simp [containsSub, List.isPrefixOf]

/-! ## Rule-identifier extraction

`check_rules.py` line 62 extracts rule ids from each source line with
`re.findall(r'\b(R-[A-Z]+-\d+)\b', line)`;
`verify_documentation.py` line 99 extracts them from a whole file with
`re.findall(r'Rule (R-[A-Z]+-\d+)', content)`.
The scanners below embed the two patterns with `re` semantics: a greedy
`[A-Z]+` run that must be followed by `-`, a greedy `\d+` run, the word
boundaries of the first pattern, and left-to-right scanning that resumes
after the end of each match. -/

/-- Greedy parse of `R-[A-Z]+-\d+` at the head of `l`; returns the
matched token and the remaining input. -/
def parseRuleCore (l : Str) : Option (Str × Str) :=
  match l with
  | c1 :: c2 :: rest =>
    if c1 = 'R' ∧ c2 = '-' then
      let u := rest.takeWhile Char.isUpper
      if u.isEmpty then none
      else
        match rest.dropWhile Char.isUpper with
        | c3 :: r2 =>
          if c3 = '-' then
            let d := r2.takeWhile Char.isDigit
            if d.isEmpty then none
            else some ('R' :: '-' :: (u ++ '-' :: d), r2.dropWhile Char.isDigit)
          else none
        | _ => none
    else none
  | _ => none

/-- `\b(R-[A-Z]+-\d+)\b` at the head of `l`: the core pattern plus the
trailing word boundary (the leading one is handled by the scanner). -/
def matchRule (l : Str) : Option (Str × Str) :=
  match parseRuleCore l with
  | some (t, rest) =>
    match rest with
    | [] => some (t, [])
    | c :: _ => if isWordChar c then none else some (t, rest)
  | none => none

/-- Left-to-right scan of `re.findall(r'\b(R-[A-Z]+-\d+)\b', line)`.
`skip` counts characters of a previous match that are still to be
consumed (findall resumes after each match); `pw` records whether the
previous character was a word character (for `\b`). -/
def scanRulesAux : Nat → Bool → Str → List Str
  | _, _, [] => []
  | Nat.succ k, _, _ :: t => scanRulesAux k true t
  | 0, pw, c :: t =>
    if pw then scanRulesAux 0 (isWordChar c) t
    else
      match matchRule (c :: t) with
      | some (tok, _) => tok :: scanRulesAux (tok.length - 1) true t
      | none => scanRulesAux 0 (isWordChar c) t

/-- `extract_rules_from_code` of `check_rules.py`, restricted to the
per-line `findall` (line 62). -/
def extract_rules_from_code_line (s : Str) : List Str := scanRulesAux 0 false s

/-- `Rule (R-[A-Z]+-\d+)` at the head of `l`: the literal `Rule ` then
the core pattern, with no word boundaries. -/
def matchPrefixedRule (l : Str) : Option (Str × Str) :=
  match l with
  | c1 :: c2 :: c3 :: c4 :: c5 :: rest =>
    if c1 = 'R' ∧ c2 = 'u' ∧ c3 = 'l' ∧ c4 = 'e' ∧ c5 = ' ' then parseRuleCore rest
    else none
  | _ => none

/-- Left-to-right scan of `re.findall(r'Rule (R-[A-Z]+-\d+)', content)`
(`verify_documentation.py` line 99); `skip` as in `scanRulesAux`. -/
def scanPrefixedRules : Nat → Str → List Str
  | _, [] => []
  | Nat.succ k, _ :: t => scanPrefixedRules k t
  | 0, c :: t =>
    match matchPrefixedRule (c :: t) with
    | some (tok, _) => tok :: scanPrefixedRules (tok.length + 4) t
    | none => scanPrefixedRules 0 t

/-- `extract_code_rules` of `verify_documentation.py` on one file
content (line 99). -/
def extract_code_rules_content (s : Str) : List Str := scanPrefixedRules 0 s

/-- Spec-side lexical shape of a rule id: the literal `R-`, one or more
uppercase letters, a hyphen, one or more digits (spec §6, "rule IDs —
letter-category code following `R-`, then a hyphen, then digits"). -/
def ruleShapeB (t : Str) : Bool :=
  match t with
  | c1 :: c2 :: rest =>
    if c1 = 'R' ∧ c2 = '-' then
      match rest.dropWhile Char.isUpper with
      | c3 :: d =>
        if c3 = '-' then
          !(rest.takeWhile Char.isUpper).isEmpty && !d.isEmpty && d.all Char.isDigit
        else false
      | _ => false
    else false
  | _ => false

/-- No word character just before the occurrence (left `\b`). -/
def okBefore (pre : Str) : Bool :=
  match pre.getLast? with
  | none => true
  | some c => !isWordChar c

/-- No word character just after the occurrence (right `\b`). -/
def okAfter (post : Str) : Bool :=
  match post with
  | [] => true
  | c :: _ => !isWordChar c

/-- Spec-side statement of C5: `t` occurs in `s` word-bounded, as a
token of the rule-id shape. -/
def boundedOcc (s t : Str) : Prop :=
  ruleShapeB t = true ∧
    ∃ pre post, s = pre ++ t ++ post ∧ okBefore pre = true ∧ okAfter post = true

/-- The remaining input does not start with a digit (so the greedy
`\d+` run of a preceding match was maximal). -/
def notDigitStart (post : Str) : Bool :=
  match post with
  | [] => true
  | c :: _ => !c.isDigit

/-- Occurrence of rule id `t` immediately preceded by the literal
`Rule ` and followed by a non-digit, the shape matched by
`verify_documentation.py`'s `extract_code_rules`. -/
def prefixedOcc (s t : Str) : Prop :=
  ruleShapeB t = true ∧
    ∃ pre post, s = pre ++ ('R' :: 'u' :: 'l' :: 'e' :: ' ' :: t) ++ post ∧
      notDigitStart post = true

/-! ### Character-class facts -/

theorem isWordChar_upper {c : Char} (h : c.isUpper = true) : isWordChar c = true := by
  simp [isWordChar, Char.isAlpha, h]

theorem isWordChar_digit {c : Char} (h : c.isDigit = true) : isWordChar c = true := by
  simp [isWordChar, h]

theorem isUpper_isDigit_false {c : Char} (h1 : c.isUpper = true) (h2 : c.isDigit = true) :
    False := by
  simp [Char.isUpper] at h1
  simp [Char.isDigit] at h2
  exact absurd (UInt32.le_trans h1.1 h2.2) (by decide)

/-! ### takeWhile/dropWhile runs -/

theorem takeWhile_upper_append (u x : Str) (hU : ∀ c ∈ u, c.isUpper = true) :
    (u ++ '-' :: x).takeWhile Char.isUpper = u := by
  rw [List.takeWhile_append]
  simp [List.takeWhile_eq_self_iff.2 hU, List.takeWhile_cons_of_neg]

theorem dropWhile_upper_append (u x : Str) (hU : ∀ c ∈ u, c.isUpper = true) :
    (u ++ '-' :: x).dropWhile Char.isUpper = '-' :: x := by
  rw [List.dropWhile_append]
  simp [List.dropWhile_eq_nil_iff.2 hU, List.dropWhile_cons_of_neg]

theorem takeWhile_digit_append (d post : Str) (hD : ∀ c ∈ d, c.isDigit = true)
    (hp : notDigitStart post = true) : (d ++ post).takeWhile Char.isDigit = d := by
  rw [List.takeWhile_append, if_pos (by rw [List.takeWhile_eq_self_iff.2 hD])]
  cases post with
  | nil => simp
  | cons c t =>
    simp only [notDigitStart, Bool.not_eq_true'] at hp
    rw [List.takeWhile_cons_of_neg (by simp [hp]), List.append_nil]

theorem dropWhile_digit_append (d post : Str) (hD : ∀ c ∈ d, c.isDigit = true)
    (hp : notDigitStart post = true) : (d ++ post).dropWhile Char.isDigit = post := by
  rw [List.dropWhile_append]
  simp only [List.dropWhile_eq_nil_iff.2 hD, List.isEmpty_nil, if_true]
  cases post with
  | nil => rfl
  | cons c t =>
    simp only [notDigitStart, Bool.not_eq_true'] at hp
    rw [List.dropWhile_cons_of_neg (by simp [hp])]

theorem notDigitStart_dropWhile (l : Str) :
    notDigitStart (l.dropWhile Char.isDigit) = true := by
  induction l with
  | nil => rfl
  | cons c t ih =>
    rw [List.dropWhile_cons]
    by_cases h : c.isDigit = true
    · simpa [h] using ih
    · simp only [h, if_false]
      simp only [Bool.not_eq_true] at h
      simp [notDigitStart, h]

/-! ### Shape of a rule id -/

theorem ne_nil_of_not_isEmpty {l : Str} (h : ¬l.isEmpty = true) : l ≠ [] := by
  cases l <;> simp_all

theorem isEmpty_false_of_ne_nil {l : Str} (h : l ≠ []) : l.isEmpty = false := by
  cases l <;> simp_all

theorem ruleShapeB_iff {t : Str} : ruleShapeB t = true ↔
    ∃ u d, t = 'R' :: '-' :: (u ++ '-' :: d) ∧ u ≠ [] ∧ (∀ c ∈ u, c.isUpper = true) ∧
      d ≠ [] ∧ (∀ c ∈ d, c.isDigit = true) := by
  constructor
  · intro h
    unfold ruleShapeB at h
    split at h
    · next c1 c2 rest =>
      split at h
      · next hc =>
        obtain ⟨rfl, rfl⟩ := hc
        split at h
        · next c3 d heq =>
          split at h
          · next hc3 =>
            subst hc3
            simp only [Bool.and_eq_true, Bool.not_eq_true', List.all_eq_true] at h
            refine ⟨rest.takeWhile Char.isUpper, d, ?_, ?_, ?_, ?_, ?_⟩
            · have h2 := List.takeWhile_append_dropWhile Char.isUpper rest
              rw [heq] at h2
              rw [h2]
            · exact ne_nil_of_not_isEmpty (by simp [h.1.1])
            · intro c hc; exact List.mem_takeWhile_imp hc
            · exact ne_nil_of_not_isEmpty (by simp [h.1.2])
            · exact h.2
          · exact absurd h (by simp)
        · exact absurd h (by simp)
      · exact absurd h (by simp)
    · exact absurd h (by simp)
  · rintro ⟨u, d, rfl, hu, hU, hd, hD⟩
    have h1 := takeWhile_upper_append u d hU
    have h2 := dropWhile_upper_append u d hU
    simp [ruleShapeB, h1, h2, isEmpty_false_of_ne_nil hu, isEmpty_false_of_ne_nil hd,
      List.all_eq_true.2 hD]

theorem ruleShapeB_ne_nil {t : Str} (h : ruleShapeB t = true) : t ≠ [] := by
  obtain ⟨u, d, rfl, -, -, -, -⟩ := ruleShapeB_iff.1 h
  simp

theorem ruleShapeB_getLast {t : Str} (h : ruleShapeB t = true) :
    ∃ c, t.getLast? = some c ∧ c.isDigit = true := by
  obtain ⟨u, d, rfl, hu, hU, hd, hD⟩ := ruleShapeB_iff.1 h
  rcases List.eq_nil_or_concat d with rfl | ⟨ds, c, rfl⟩
  · exact absurd rfl hd
  · refine ⟨c, ?_, hD c (by simp)⟩
    have : ('R' :: '-' :: (u ++ '-' :: ds.concat c) : Str) =
        ('R' :: '-' :: (u ++ '-' :: ds)) ++ [c] := by simp
    rw [this, List.getLast?_concat]

theorem okBefore_ruleShape {t : Str} (h : ruleShapeB t = true) : okBefore t = false := by
  obtain ⟨c, hc, hd⟩ := ruleShapeB_getLast h
  simp [okBefore, hc, isWordChar_digit hd]

theorem okBefore_append (a l : Str) (h : l ≠ []) : okBefore (a ++ l) = okBefore l := by
  unfold okBefore
  rw [List.getLast?_append]
  cases hl : l.getLast? with
  | none => exact absurd (List.getLast?_eq_none_iff.1 hl) h
  | some c => rfl

theorem okBefore_cons (p : Char) (l : Str) (h : l ≠ []) : okBefore (p :: l) = okBefore l := by
  have : (p :: l : Str) = [p] ++ l := rfl
  rw [this, okBefore_append _ _ h]

/-! ### Parse lemmas -/

theorem parseRuleCore_eq {l t r : Str} (h : parseRuleCore l = some (t, r)) :
    l = t ++ r ∧ ruleShapeB t = true ∧ notDigitStart r = true := by
  match l with
  | [] => exact absurd h (by simp [parseRuleCore])
  | [c1] => exact absurd h (by simp [parseRuleCore])
  | c1 :: c2 :: rest =>
    simp only [parseRuleCore] at h
    by_cases hc : c1 = 'R' ∧ c2 = '-'
    case neg => rw [if_neg hc] at h; exact absurd h (by simp)
    obtain ⟨rfl, rfl⟩ := hc
    rw [if_pos ⟨rfl, rfl⟩] at h
    by_cases hne : (rest.takeWhile Char.isUpper).isEmpty = true
    · rw [if_pos hne] at h; exact absurd h (by simp)
    rw [if_neg hne] at h
    cases hdw : rest.dropWhile Char.isUpper with
    | nil => rw [hdw] at h; exact absurd h (by simp)
    | cons c3 r2 =>
      rw [hdw] at h
      simp only [] at h
      by_cases hc3 : c3 = '-'
      case neg => rw [if_neg hc3] at h; exact absurd h (by simp)
      subst hc3
      rw [if_pos rfl] at h
      by_cases hde : (r2.takeWhile Char.isDigit).isEmpty = true
      · rw [if_pos hde] at h; exact absurd h (by simp)
      rw [if_neg hde] at h
      injection h with h1
      injection h1 with ha hb
      subst ha hb
      have h2 := List.takeWhile_append_dropWhile Char.isUpper rest
      have h3 := List.takeWhile_append_dropWhile Char.isDigit r2
      rw [hdw] at h2
      refine ⟨?_, ?_, notDigitStart_dropWhile r2⟩
      · simp only [List.cons_append, List.append_assoc, List.cons.injEq, true_and]
        rw [h3, h2]
      · rw [ruleShapeB_iff]
        refine ⟨rest.takeWhile Char.isUpper, r2.takeWhile Char.isDigit, rfl,
          ne_nil_of_not_isEmpty hne, ?_, ne_nil_of_not_isEmpty hde, ?_⟩
        · intro c hc; exact List.mem_takeWhile_imp hc
        · intro c hc; exact List.mem_takeWhile_imp hc

theorem parseRuleCore_complete {t r : Str} (h : ruleShapeB t = true)
    (hr : notDigitStart r = true) : parseRuleCore (t ++ r) = some (t, r) := by
  obtain ⟨u, d, rfl, hu, hU, hd, hD⟩ := ruleShapeB_iff.1 h
  have e1 : (('R' :: '-' :: (u ++ '-' :: d) : Str)) ++ r =
      'R' :: '-' :: (u ++ '-' :: (d ++ r)) := by simp
  rw [e1]
  have htw := takeWhile_upper_append u (d ++ r) hU
  have hdw := dropWhile_upper_append u (d ++ r) hU
  have htd := takeWhile_digit_append d r hD hr
  have hdd := dropWhile_digit_append d r hD hr
  simp [parseRuleCore, htw, hdw, htd, hdd, isEmpty_false_of_ne_nil hu,
    isEmpty_false_of_ne_nil hd]

theorem matchRule_eq {l t r : Str} (h : matchRule l = some (t, r)) :
    l = t ++ r ∧ ruleShapeB t = true ∧ okAfter r = true := by
  unfold matchRule at h
  split at h
  · next t' r' hp =>
    obtain ⟨he, hs, -⟩ := parseRuleCore_eq hp
    split at h
    · injection h with h1
      injection h1 with ha hb
      subst ha; subst hb
      exact ⟨he, hs, rfl⟩
    · next c cs =>
      split at h
      · exact absurd h (by simp)
      · next hw =>
        injection h with h1
        injection h1 with ha hb
        subst ha; subst hb
        simp only [Bool.not_eq_true] at hw
        exact ⟨he, hs, by simp [okAfter, hw]⟩
  · exact absurd h (by simp)

theorem okAfter_notDigitStart {r : Str} (h : okAfter r = true) : notDigitStart r = true := by
  cases r with
  | nil => rfl
  | cons c cs =>
    simp only [okAfter, Bool.not_eq_true'] at h
    simp only [notDigitStart, Bool.not_eq_true']
    cases hd : c.isDigit with
    | false => rfl
    | true => exact absurd (isWordChar_digit hd) (by simp [h])

theorem matchRule_complete {t r : Str} (h : ruleShapeB t = true) (hr : okAfter r = true) :
    matchRule (t ++ r) = some (t, r) := by
  unfold matchRule
  rw [parseRuleCore_complete h (okAfter_notDigitStart hr)]
  cases r with
  | nil => rfl
  | cons c cs =>
    simp only [okAfter, Bool.not_eq_true'] at hr
    simp [hr]

/-! ### No word-bounded occurrence starts strictly inside a match -/

theorem tok_nonword_index {u d : Str} (hU : ∀ c ∈ u, c.isUpper = true)
    (hD : ∀ c ∈ d, c.isDigit = true) {i : Nat} {c : Char}
    (hget : (('R' :: '-' :: (u ++ '-' :: d)) : Str)[i]? = some c)
    (hnw : isWordChar c = false) : i = 1 ∨ i = 2 + u.length := by
  cases i with
  | zero =>
    simp only [List.getElem?_cons_zero, Option.some.injEq] at hget
    subst hget
    exact absurd hnw (by decide)
  | succ i1 =>
    cases i1 with
    | zero => exact Or.inl rfl
    | succ n =>
      rw [List.getElem?_cons_succ, List.getElem?_cons_succ, List.getElem?_append] at hget
      split at hget
      · next hlt =>
        have hcm : c ∈ u := by
          obtain ⟨hh, he⟩ := List.getElem?_eq_some_iff.1 hget
          exact he ▸ List.getElem_mem hh
        exact absurd (isWordChar_upper (hU c hcm)) (by simp [hnw])
      · next hge =>
        cases hnu : n - u.length with
        | zero =>
          rw [hnu, List.getElem?_cons_zero] at hget
          right
          simp only [not_lt] at hge
          omega
        | succ m =>
          rw [hnu, List.getElem?_cons_succ] at hget
          have hcm : c ∈ d := by
            obtain ⟨hh, he⟩ := List.getElem?_eq_some_iff.1 hget
            exact he ▸ List.getElem_mem hh
          exact absurd (isWordChar_digit (hD c hcm)) (by simp [hnw])

theorem no_occ_inside {u d rest pre t post : Str}
    (hu : u ≠ []) (hU : ∀ c ∈ u, c.isUpper = true) (hd : d ≠ [])
    (hD : ∀ c ∈ d, c.isDigit = true)
    (heq : ('R' :: '-' :: (u ++ '-' :: d) : Str) ++ rest = pre ++ t ++ post)
    (hpre : pre ≠ []) (hlen : pre.length < ('R' :: '-' :: (u ++ '-' :: d) : Str).length)
    (ht : ruleShapeB t = true) (hb : okBefore pre = true) : False := by
  rcases List.eq_nil_or_concat pre with rfl | ⟨pre', cl, rfl⟩
  · exact hpre rfl
  have hcl : isWordChar cl = false := by
    have h0 : okBefore (pre' ++ [cl]) = true := by rw [← List.concat_eq_append]; exact hb
    simpa [okBefore, List.getLast?_concat] using h0
  have hlt : pre'.length < ('R' :: '-' :: (u ++ '-' :: d) : Str).length := by
    simp only [List.length_concat] at hlen
    omega
  have heq2 : ('R' :: '-' :: (u ++ '-' :: d) : Str) ++ rest = pre' ++ cl :: (t ++ post) := by
    rw [heq]
    simp [List.concat_eq_append, List.append_assoc]
  have hidx : (('R' :: '-' :: (u ++ '-' :: d) : Str))[pre'.length]? = some cl := by
    have h1 : (('R' :: '-' :: (u ++ '-' :: d) : Str) ++ rest)[pre'.length]? = some cl := by
      rw [heq2, List.getElem?_append, if_neg (by omega)]
      simp
    rw [List.getElem?_append, if_pos hlt] at h1
    exact h1
  have hnw12 := tok_nonword_index hU hD hidx hcl
  have hsuf : cl :: (t ++ post) = ('R' :: '-' :: (u ++ '-' :: d) : Str).drop pre'.length ++ rest := by
    have h1 : (('R' :: '-' :: (u ++ '-' :: d) : Str) ++ rest).drop pre'.length =
        cl :: (t ++ post) := by
      rw [heq2, List.drop_left]
    rw [← h1, List.drop_append_eq_append_drop, Nat.sub_eq_zero_of_le (le_of_lt hlt),
      List.drop_zero]
  obtain ⟨u', d', htd, hu', hU', hd', hD'⟩ := ruleShapeB_iff.1 ht
  rcases hnw12 with h1 | h1
  · rw [h1] at hsuf
    simp only [List.drop_succ_cons, List.drop_zero] at hsuf
    rw [htd] at hsuf
    cases u with
    | nil => exact hu rfl
    | cons a u2 =>
      cases u2 with
      | nil =>
        simp only [List.cons_append, List.nil_append, List.cons.injEq] at hsuf
        obtain ⟨-, -, -, htail⟩ := hsuf
        cases u' with
        | nil => exact hu' rfl
        | cons e u2' =>
          cases d with
          | nil => exact hd rfl
          | cons f d2 =>
            simp only [List.cons_append, List.cons.injEq] at htail
            exact isUpper_isDigit_false (hU' e (by simp)) (htail.1 ▸ hD f (by simp))
      | cons b u3 =>
        simp only [List.cons_append, List.cons.injEq] at hsuf
        obtain ⟨-, -, hb3, -⟩ := hsuf
        exact absurd (hU b (by simp)) (by rw [← hb3]; decide)
  · rw [h1] at hsuf
    have hdrop : ('R' :: '-' :: (u ++ '-' :: d) : Str).drop (2 + u.length) = '-' :: d := by
      rw [show 2 + u.length = u.length + 1 + 1 from by omega, List.drop_succ_cons,
        List.drop_succ_cons]
      have := List.drop_left u ('-' :: d)
      simpa using this
    rw [hdrop, htd] at hsuf
    cases d with
    | nil => exact hd rfl
    | cons f d2 =>
      simp only [List.cons_append, List.cons.injEq] at hsuf
      obtain ⟨-, hf, -⟩ := hsuf
      exact absurd (hD f (by simp)) (by rw [← hf]; decide)

/-! ### Scanner unfolding equations -/

theorem scanRulesAux_cons_true (c : Char) (t : Str) :
    scanRulesAux 0 true (c :: t) = scanRulesAux 0 (isWordChar c) t := rfl

theorem scanRulesAux_cons_none {c : Char} {t : Str} (pw : Bool)
    (hm : matchRule (c :: t) = none) :
    scanRulesAux 0 pw (c :: t) = scanRulesAux 0 (isWordChar c) t := by
  cases pw
  · show (match matchRule (c :: t) with
      | some (tok, _) => tok :: scanRulesAux (tok.length - 1) true t
      | none => scanRulesAux 0 (isWordChar c) t) = _
    rw [hm]
  · rfl

theorem scanRulesAux_cons_some {c : Char} {t tok r : Str}
    (hm : matchRule (c :: t) = some (tok, r)) :
    scanRulesAux 0 false (c :: t) = tok :: scanRulesAux (tok.length - 1) true t := by
  show (match matchRule (c :: t) with
    | some (tok, _) => tok :: scanRulesAux (tok.length - 1) true t
    | none => scanRulesAux 0 (isWordChar c) t) = _
  rw [hm]

theorem scanRulesAux_succ : ∀ (l : Str) (k : Nat) (pw : Bool),
    scanRulesAux (k + 1) pw l = scanRulesAux 0 true (l.drop (k + 1)) := by
  intro l
  induction l with
  | nil => intro k pw; rfl
  | cons c t ih =>
    intro k pw
    show scanRulesAux k true t = _
    cases k with
    | zero => simp
    | succ k2 =>
      rw [ih k2 true]
      congr 1

theorem scanRulesAux_skip_match {c : Char} {s' tok r : Str}
    (hm : matchRule (c :: s') = some (tok, r)) :
    scanRulesAux (tok.length - 1) true s' = scanRulesAux 0 true r := by
  obtain ⟨heq, hsh, -⟩ := matchRule_eq hm
  obtain ⟨u, d, htok, -, -, -, -⟩ := ruleShapeB_iff.1 hsh
  subst htok
  simp only [List.cons_append] at heq
  injection heq with h1 h2
  have hl : ('R' :: '-' :: (u ++ '-' :: d) : Str).length - 1 = ((u ++ '-' :: d).length) + 1 := by
    simp
  rw [hl, scanRulesAux_succ, h2]
  congr 1
  rw [List.drop_succ_cons]
  have h3 : ((u ++ '-' :: d) ++ r : Str).drop (u ++ '-' :: d).length = r := List.drop_left _ _
  simpa using h3

/-! ### Context-sensitive occurrence -/

/-- `okBefore` relative to the scan state: an occurrence at the very
start of the remaining input needs the previous character (tracked by
`pw`) to be a non-word character. -/
def okBeforeCtx (pw : Bool) (pre : Str) : Bool :=
  match pre with
  | [] => !pw
  | _ :: _ => okBefore pre

def occCtx (pw : Bool) (s t : Str) : Prop :=
  ruleShapeB t = true ∧
    ∃ pre post, s = pre ++ t ++ post ∧ okBeforeCtx pw pre = true ∧ okAfter post = true

theorem okBeforeCtx_of_ne_nil (pw : Bool) {pre : Str} (h : pre ≠ []) :
    okBeforeCtx pw pre = okBefore pre := by
  cases pre
  · exact absurd rfl h
  · rfl

theorem okBeforeCtx_false (pre : Str) : okBeforeCtx false pre = okBefore pre := by
  cases pre <;> rfl

theorem occCtx_lift {pw : Bool} {c : Char} {s' t : Str}
    (h : occCtx (isWordChar c) s' t) : occCtx pw (c :: s') t := by
  obtain ⟨hsh, pre', post, heq, hb, ha⟩ := h
  refine ⟨hsh, c :: pre', post, by rw [heq]; simp, ?_, ha⟩
  rw [okBeforeCtx_of_ne_nil pw (by simp)]
  cases pre' with
  | nil => simpa [okBeforeCtx, okBefore] using hb
  | cons q qre =>
    rw [okBefore_cons c _ (by simp)]
    exact hb

/-! ### Soundness and completeness of the `\b(R-[A-Z]+-\d+)\b` scan -/

theorem scanRules_sound : ∀ (n : Nat) (s : Str), s.length ≤ n → ∀ (pw : Bool) (t : Str),
    t ∈ scanRulesAux 0 pw s → occCtx pw s t := by
  intro n
  induction n with
  | zero =>
    intro s hs pw t ht
    obtain rfl := List.length_eq_zero.1 (Nat.le_zero.1 hs)
    exact absurd ht (List.not_mem_nil t)
  | succ n ih =>
    intro s hs pw t ht
    cases s with
    | nil => exact absurd ht (List.not_mem_nil t)
    | cons c s' =>
      have hs' : s'.length ≤ n := by simp at hs; omega
      cases pw with
      | true =>
        rw [scanRulesAux_cons_true] at ht
        exact occCtx_lift (ih s' hs' _ t ht)
      | false =>
        cases hm : matchRule (c :: s') with
        | none =>
          rw [scanRulesAux_cons_none false hm] at ht
          exact occCtx_lift (ih s' hs' _ t ht)
        | some pr =>
          obtain ⟨tok, r⟩ := pr
          rw [scanRulesAux_cons_some hm, scanRulesAux_skip_match hm] at ht
          obtain ⟨heqm, hshm, hafter⟩ := matchRule_eq hm
          have hrlen : r.length ≤ n := by
            have h1 := congrArg List.length heqm
            have h2 : 1 ≤ tok.length :=
              List.length_pos.2 (ruleShapeB_ne_nil hshm)
            simp at h1 hs
            omega
          rcases List.mem_cons.1 ht with rfl | ht2
          · exact ⟨hshm, [], r, by simpa using heqm, rfl, hafter⟩
          · obtain ⟨hsh2, pre2, post, heq2, hb2, ha2⟩ := ih r hrlen true t ht2
            cases pre2 with
            | nil => simp [okBeforeCtx] at hb2
            | cons q qre =>
              refine ⟨hsh2, tok ++ (q :: qre), post, ?_, ?_, ha2⟩
              · rw [heqm, heq2]
                simp [List.append_assoc]
              · rw [okBeforeCtx_of_ne_nil false (by simp [ruleShapeB_ne_nil hshm]),
                  okBefore_append _ _ (by simp)]
                exact hb2

theorem scanRules_complete : ∀ (n : Nat) (s : Str), s.length ≤ n → ∀ (pw : Bool) (t : Str),
    occCtx pw s t → t ∈ scanRulesAux 0 pw s := by
  intro n
  induction n with
  | zero =>
    intro s hs pw t hocc
    obtain ⟨hsh, pre, post, heq, -, -⟩ := hocc
    obtain rfl := List.length_eq_zero.1 (Nat.le_zero.1 hs)
    have h1 : pre ++ t ++ post = [] := heq.symm
    simp only [List.append_eq_nil] at h1
    exact absurd h1.1.2 (ruleShapeB_ne_nil hsh)
  | succ n ih =>
    intro s hs pw t hocc
    obtain ⟨hsh, pre, post, heq, hb, ha⟩ := hocc
    cases s with
    | nil =>
      have h1 : pre ++ t ++ post = [] := heq.symm
      simp only [List.append_eq_nil] at h1
      exact absurd h1.1.2 (ruleShapeB_ne_nil hsh)
    | cons c s' =>
      have hs' : s'.length ≤ n := by simp at hs; omega
      cases pre with
      | nil =>
        have hpw : pw = false := by simpa [okBeforeCtx] using hb
        subst hpw
        have hm : matchRule (c :: s') = some (t, post) := by
          rw [show (c :: s' : Str) = t ++ post by simpa using heq]
          exact matchRule_complete hsh ha
        rw [scanRulesAux_cons_some hm]
        exact List.mem_cons_self _ _
      | cons p pre' =>
        have hcp : c = p ∧ s' = pre' ++ t ++ post := by
          simp only [List.cons_append, List.append_assoc, List.cons.injEq] at heq
          exact ⟨heq.1, by rw [heq.2, List.append_assoc]⟩
        obtain ⟨rfl, hs'eq⟩ := hcp
        have hbPre : okBefore (c :: pre') = true := by
          rw [← okBeforeCtx_of_ne_nil pw (by simp)]
          exact hb
        have hocc' : occCtx (isWordChar c) s' t := by
          refine ⟨hsh, pre', post, hs'eq, ?_, ha⟩
          cases pre' with
          | nil => simpa [okBeforeCtx, okBefore] using hbPre
          | cons q qre =>
            rw [okBeforeCtx_of_ne_nil _ (by simp)]
            rwa [okBefore_cons c _ (by simp)] at hbPre
        cases pw with
        | true =>
          rw [scanRulesAux_cons_true]
          exact ih s' hs' _ t hocc'
        | false =>
          cases hm : matchRule (c :: s') with
          | none =>
            rw [scanRulesAux_cons_none false hm]
            exact ih s' hs' _ t hocc'
          | some pr =>
            obtain ⟨tok, r⟩ := pr
            obtain ⟨heqm, hshm, ham⟩ := matchRule_eq hm
            rw [scanRulesAux_cons_some hm, scanRulesAux_skip_match hm]
            have heqT : tok ++ r = (c :: pre') ++ t ++ post := by rw [← heqm, heq]
            have hrlen : r.length ≤ n := by
              have h1 := congrArg List.length heqm
              have h2 : 1 ≤ tok.length := List.length_pos.2 (ruleShapeB_ne_nil hshm)
              simp at h1 hs
              omega
            rcases lt_trichotomy ((c :: pre' : Str)).length tok.length with hlt | heqL | hgt
            · obtain ⟨u, d, htokd, hu2, hU2, hd2, hD2⟩ := ruleShapeB_iff.1 hshm
              subst htokd
              exact absurd (no_occ_inside hu2 hU2 hd2 hD2 heqT (by simp) hlt hsh hbPre)
                (fun h => h)
            · have heqT' : tok ++ r = (c :: pre') ++ (t ++ post) := by
                rw [heqT, List.append_assoc]
              obtain ⟨h1, -⟩ := List.append_inj heqT'.symm heqL
              rw [h1, okBefore_ruleShape hshm] at hbPre
              exact absurd hbPre (by simp)
            · have heqT' : tok ++ r = (c :: pre') ++ (t ++ post) := by
                rw [heqT, List.append_assoc]
              rcases List.append_eq_append_iff.1 heqT' with ⟨a2, ha2, hb2⟩ | ⟨c2, hc2, hd2⟩
              · have ha2ne : a2 ≠ [] := by
                  intro hnil
                  subst hnil
                  rw [List.append_nil] at ha2
                  rw [← ha2] at hgt
                  exact lt_irrefl _ hgt
                apply List.mem_cons_of_mem
                apply ih r hrlen true t
                refine ⟨hsh, a2, post, by rw [hb2, List.append_assoc], ?_, ha⟩
                rw [okBeforeCtx_of_ne_nil _ ha2ne]
                have hbP2 := hbPre
                rw [ha2, okBefore_append _ _ ha2ne] at hbP2
                exact hbP2
              · have := congrArg List.length hc2
                simp at this hgt
                omega

/-- The per-line extraction of `check_rules.py` (pattern
`\b(R-[A-Z]+-\d+)\b`) returns exactly the word-bounded rule-id
occurrences. -/
theorem extract_rules_from_code_line_iff (s t : Str) :
    t ∈ extract_rules_from_code_line s ↔ boundedOcc s t := by
  unfold extract_rules_from_code_line
  constructor
  · intro h
    obtain ⟨hsh, pre, post, heq, hb, ha⟩ := scanRules_sound s.length s le_rfl false t h
    exact ⟨hsh, pre, post, heq, by rwa [okBeforeCtx_false] at hb, ha⟩
  · rintro ⟨hsh, pre, post, heq, hb, ha⟩
    exact scanRules_complete s.length s le_rfl false t
      ⟨hsh, pre, post, heq, by rwa [okBeforeCtx_false], ha⟩

/-! ### The `Rule (R-[A-Z]+-\d+)` scan of `verify_documentation.py` -/

theorem matchPrefixedRule_eq {l t r : Str} (h : matchPrefixedRule l = some (t, r)) :
    l = 'R' :: 'u' :: 'l' :: 'e' :: ' ' :: (t ++ r) ∧ ruleShapeB t = true ∧
      notDigitStart r = true := by
  unfold matchPrefixedRule at h
  split at h
  · next c1 c2 c3 c4 c5 rest =>
    split at h
    · next hc =>
      obtain ⟨rfl, rfl, rfl, rfl, rfl⟩ := hc
      obtain ⟨he, hs, hn⟩ := parseRuleCore_eq h
      exact ⟨by rw [he], hs, hn⟩
    · exact absurd h (by simp)
  · exact absurd h (by simp)

theorem matchPrefixedRule_complete {t r : Str} (h : ruleShapeB t = true)
    (hr : notDigitStart r = true) :
    matchPrefixedRule ('R' :: 'u' :: 'l' :: 'e' :: ' ' :: (t ++ r)) = some (t, r) := by
  show (if ('R' : Char) = 'R' ∧ ('u' : Char) = 'u' ∧ ('l' : Char) = 'l' ∧ ('e' : Char) = 'e' ∧
      (' ' : Char) = ' ' then parseRuleCore (t ++ r) else none) = some (t, r)
  rw [if_pos ⟨rfl, rfl, rfl, rfl, rfl⟩]
  exact parseRuleCore_complete h hr

theorem consumed_u_index {u d : Str} (hU : ∀ c ∈ u, c.isUpper = true)
    (hD : ∀ c ∈ d, c.isDigit = true) {i : Nat}
    (hget : (('R' :: 'u' :: 'l' :: 'e' :: ' ' :: ('R' :: '-' :: (u ++ '-' :: d))) :
      Str)[i]? = some 'u') : i = 1 := by
  match i with
  | 0 => simp at hget
  | 1 => rfl
  | 2 => simp at hget
  | 3 => simp at hget
  | 4 => simp at hget
  | 5 => simp at hget
  | 6 => simp at hget
  | (n+7) =>
    simp only [List.getElem?_cons_succ] at hget
    rw [List.getElem?_append] at hget
    split at hget
    · have hcm : 'u' ∈ u := by
        obtain ⟨hh, he⟩ := List.getElem?_eq_some_iff.1 hget
        exact he ▸ List.getElem_mem hh
      exact absurd (hU 'u' hcm) (by decide)
    · cases hnu : n - u.length with
      | zero => rw [hnu] at hget; simp at hget
      | succ m =>
        rw [hnu, List.getElem?_cons_succ] at hget
        have hcm : 'u' ∈ d := by
          obtain ⟨hh, he⟩ := List.getElem?_eq_some_iff.1 hget
          exact he ▸ List.getElem_mem hh
        exact absurd (hD 'u' hcm) (by decide)

theorem consumed_getLast {u d : Str} (hd : d ≠ []) (hD : ∀ c ∈ d, c.isDigit = true) :
    ∃ c, (('R' :: 'u' :: 'l' :: 'e' :: ' ' :: ('R' :: '-' :: (u ++ '-' :: d))) :
      Str).getLast? = some c ∧ c.isDigit = true := by
  rcases List.eq_nil_or_concat d with rfl | ⟨ds, c, rfl⟩
  · exact absurd rfl hd
  · refine ⟨c, ?_, hD c (by simp)⟩
    have h1 : (('R' :: 'u' :: 'l' :: 'e' :: ' ' :: ('R' :: '-' :: (u ++ '-' :: ds.concat c))) :
        Str) = ('R' :: 'u' :: 'l' :: 'e' :: ' ' :: ('R' :: '-' :: (u ++ '-' :: ds))) ++ [c] := by
      simp
    rw [h1, List.getLast?_concat]

theorem no_occ_inside_pref {u d rest pre t post : Str}
    (hU : ∀ c ∈ u, c.isUpper = true) (hd : d ≠ []) (hD : ∀ c ∈ d, c.isDigit = true)
    (heq : (('R' :: 'u' :: 'l' :: 'e' :: ' ' :: ('R' :: '-' :: (u ++ '-' :: d))) : Str) ++ rest =
      pre ++ ('R' :: 'u' :: 'l' :: 'e' :: ' ' :: t) ++ post)
    (hpre : pre ≠ [])
    (hlen : pre.length <
      (('R' :: 'u' :: 'l' :: 'e' :: ' ' :: ('R' :: '-' :: (u ++ '-' :: d))) : Str).length) :
    False := by
  have heq' : (('R' :: 'u' :: 'l' :: 'e' :: ' ' :: ('R' :: '-' :: (u ++ '-' :: d))) : Str) ++
      rest = pre ++ (('R' :: 'u' :: 'l' :: 'e' :: ' ' :: t) ++ post) := by
    rw [heq, List.append_assoc]
  have hR : ((('R' :: 'u' :: 'l' :: 'e' :: ' ' :: ('R' :: '-' :: (u ++ '-' :: d))) : Str) ++
      rest)[pre.length]? = some 'R' := by
    rw [heq', List.getElem?_append_right (Nat.le_refl _)]
    simp
  by_cases hcase : pre.length + 1 <
      (('R' :: 'u' :: 'l' :: 'e' :: ' ' :: ('R' :: '-' :: (u ++ '-' :: d))) : Str).length
  · have hu' : ((('R' :: 'u' :: 'l' :: 'e' :: ' ' :: ('R' :: '-' :: (u ++ '-' :: d))) : Str) ++
        rest)[pre.length + 1]? = some 'u' := by
      rw [heq', List.getElem?_append_right (by omega)]
      have h2 : pre.length + 1 - pre.length = 1 := by omega
      rw [h2]
      simp
    rw [List.getElem?_append_left hcase] at hu'
    have := consumed_u_index hU hD hu'
    have hp0 : pre.length = 0 := by omega
    exact hpre (List.length_eq_zero.1 hp0)
  · have hpl : pre.length =
        (('R' :: 'u' :: 'l' :: 'e' :: ' ' :: ('R' :: '-' :: (u ++ '-' :: d))) : Str).length - 1 :=
      by omega
    rw [List.getElem?_append_left hlen] at hR
    obtain ⟨c, hc1, hc2⟩ := consumed_getLast (u := u) hd hD
    rw [List.getLast?_eq_getElem?] at hc1
    rw [hpl] at hR
    rw [hR] at hc1
    injection hc1 with hc3
    rw [← hc3] at hc2
    exact absurd hc2 (by decide)

theorem scanPrefixedRules_cons_none {c : Char} {t : Str}
    (hm : matchPrefixedRule (c :: t) = none) :
    scanPrefixedRules 0 (c :: t) = scanPrefixedRules 0 t := by
  show (match matchPrefixedRule (c :: t) with
    | some (tok, _) => tok :: scanPrefixedRules (tok.length + 4) t
    | none => scanPrefixedRules 0 t) = _
  rw [hm]

theorem scanPrefixedRules_cons_some {c : Char} {t tok r : Str}
    (hm : matchPrefixedRule (c :: t) = some (tok, r)) :
    scanPrefixedRules 0 (c :: t) = tok :: scanPrefixedRules (tok.length + 4) t := by
  show (match matchPrefixedRule (c :: t) with
    | some (tok, _) => tok :: scanPrefixedRules (tok.length + 4) t
    | none => scanPrefixedRules 0 t) = _
  rw [hm]

theorem scanPrefixedRules_succ : ∀ (l : Str) (k : Nat),
    scanPrefixedRules (k + 1) l = scanPrefixedRules 0 (l.drop (k + 1)) := by
  intro l
  induction l with
  | nil => intro k; rfl
  | cons c t ih =>
    intro k
    show scanPrefixedRules k t = _
    cases k with
    | zero => simp
    | succ k2 =>
      rw [ih k2]
      congr 1

theorem scanPrefixedRules_skip_match {c : Char} {s' tok r : Str}
    (hm : matchPrefixedRule (c :: s') = some (tok, r)) :
    scanPrefixedRules (tok.length + 4) s' = scanPrefixedRules 0 r := by
  obtain ⟨heq, hsh, -⟩ := matchPrefixedRule_eq hm
  injection heq with h1 h2
  rw [show tok.length + 4 = (((tok.length + 1) + 1) + 1) + 1 from by omega,
    scanPrefixedRules_succ, h2]
  congr 1
  rw [show (((tok.length + 1) + 1) + 1) + 1 = tok.length + 1 + 1 + 1 + 1 from by omega]
  rw [List.drop_succ_cons, List.drop_succ_cons, List.drop_succ_cons, List.drop_succ_cons,
    List.drop_left]

theorem scanPref_sound : ∀ (n : Nat) (s : Str), s.length ≤ n → ∀ (t : Str),
    t ∈ scanPrefixedRules 0 s → prefixedOcc s t := by
  intro n
  induction n with
  | zero =>
    intro s hs t ht
    obtain rfl := List.length_eq_zero.1 (Nat.le_zero.1 hs)
    exact absurd ht (List.not_mem_nil t)
  | succ n ih =>
    intro s hs t ht
    cases s with
    | nil => exact absurd ht (List.not_mem_nil t)
    | cons c s' =>
      have hs' : s'.length ≤ n := by simp at hs; omega
      cases hm : matchPrefixedRule (c :: s') with
      | none =>
        rw [scanPrefixedRules_cons_none hm] at ht
        obtain ⟨hsh, pre, post, heq, hnd⟩ := ih s' hs' t ht
        exact ⟨hsh, c :: pre, post, by rw [heq]; simp, hnd⟩
      | some pr =>
        obtain ⟨tok, r⟩ := pr
        rw [scanPrefixedRules_cons_some hm, scanPrefixedRules_skip_match hm] at ht
        obtain ⟨heqm, hshm, hndm⟩ := matchPrefixedRule_eq hm
        have hrlen : r.length ≤ n := by
          have h1 := congrArg List.length heqm
          simp at h1 hs
          omega
        rcases List.mem_cons.1 ht with rfl | ht2
        · exact ⟨hshm, [], r, by rw [heqm]; simp, hndm⟩
        · obtain ⟨hsh2, pre2, post, heq2, hnd2⟩ := ih r hrlen t ht2
          refine ⟨hsh2, ('R' :: 'u' :: 'l' :: 'e' :: ' ' :: tok) ++ pre2, post, ?_, hnd2⟩
          rw [heqm, heq2]
          simp [List.append_assoc]

theorem scanPref_complete : ∀ (n : Nat) (s : Str), s.length ≤ n → ∀ (t : Str),
    prefixedOcc s t → t ∈ scanPrefixedRules 0 s := by
  intro n
  induction n with
  | zero =>
    intro s hs t hocc
    obtain ⟨hsh, pre, post, heq, -⟩ := hocc
    obtain rfl := List.length_eq_zero.1 (Nat.le_zero.1 hs)
    have h1 : pre ++ ('R' :: 'u' :: 'l' :: 'e' :: ' ' :: t) ++ post = [] := heq.symm
    simp at h1
  | succ n ih =>
    intro s hs t hocc
    obtain ⟨hsh, pre, post, heq, hnd⟩ := hocc
    cases s with
    | nil =>
      have h1 : pre ++ ('R' :: 'u' :: 'l' :: 'e' :: ' ' :: t) ++ post = [] := heq.symm
      simp at h1
    | cons c s' =>
      have hs' : s'.length ≤ n := by simp at hs; omega
      cases pre with
      | nil =>
        have hm : matchPrefixedRule (c :: s') = some (t, post) := by
          rw [show (c :: s' : Str) = 'R' :: 'u' :: 'l' :: 'e' :: ' ' :: (t ++ post) by
            simpa using heq]
          exact matchPrefixedRule_complete hsh hnd
        rw [scanPrefixedRules_cons_some hm]
        exact List.mem_cons_self _ _
      | cons p pre' =>
        have hcp : c = p ∧ s' = pre' ++ ('R' :: 'u' :: 'l' :: 'e' :: ' ' :: t) ++ post := by
          simp only [List.cons_append, List.append_assoc, List.cons.injEq] at heq
          exact ⟨heq.1, by rw [heq.2]; simp⟩
        obtain ⟨rfl, hs'eq⟩ := hcp
        cases hm : matchPrefixedRule (c :: s') with
        | none =>
          rw [scanPrefixedRules_cons_none hm]
          exact ih s' hs' t ⟨hsh, pre', post, hs'eq, hnd⟩
        | some pr =>
          obtain ⟨tok, r⟩ := pr
          obtain ⟨heqm, hshm, hndm⟩ := matchPrefixedRule_eq hm
          rw [scanPrefixedRules_cons_some hm, scanPrefixedRules_skip_match hm]
          have hrlen : r.length ≤ n := by
            have h1 := congrArg List.length heqm
            simp at h1 hs
            omega
          have heqT : (('R' :: 'u' :: 'l' :: 'e' :: ' ' :: tok) : Str) ++ r =
              (c :: pre') ++ ('R' :: 'u' :: 'l' :: 'e' :: ' ' :: t) ++ post := by
            rw [← heq]
            rw [heqm]
            simp
          have heqT' : (('R' :: 'u' :: 'l' :: 'e' :: ' ' :: tok) : Str) ++ r =
              (c :: pre') ++ (('R' :: 'u' :: 'l' :: 'e' :: ' ' :: t) ++ post) := by
            rw [heqT, List.append_assoc]
          rcases List.append_eq_append_iff.1 heqT' with ⟨a2, ha2, hb2⟩ | ⟨c2, hc2, hd2⟩
          · apply List.mem_cons_of_mem
            apply ih r hrlen t
            exact ⟨hsh, a2, post, by rw [hb2, List.append_assoc], hnd⟩
          · cases c2 with
            | nil =>
              rw [List.append_nil] at hc2
              simp only [List.nil_append] at hd2
              apply List.mem_cons_of_mem
              apply ih r hrlen t
              exact ⟨hsh, [], post, by rw [← hd2]; simp, hnd⟩
            | cons e c2' =>
              obtain ⟨u, d, htokd, hu2, hU2, hd2', hD2⟩ := ruleShapeB_iff.1 hshm
              have hlen : (c :: pre' : Str).length <
                  (('R' :: 'u' :: 'l' :: 'e' :: ' ' :: tok) : Str).length := by
                have := congrArg List.length hc2
                simp at this
                simp
                omega
              rw [htokd] at heqT hlen
              exact absurd (no_occ_inside_pref hU2 hd2' hD2 heqT (by simp) hlen) (fun h => h)

/-- The whole-content extraction of `verify_documentation.py` (pattern
`Rule (R-[A-Z]+-\d+)`) returns exactly the rule-id tokens immediately
preceded by the literal `Rule ` and followed by a non-digit. -/
theorem extract_code_rules_content_iff (s t : Str) :
    t ∈ extract_code_rules_content s ↔ prefixedOcc s t := by
  unfold extract_code_rules_content
  exact ⟨scanPref_sound s.length s le_rfl t, scanPref_complete s.length s le_rfl t⟩

/-! ## Route extraction (`verify_documentation.py`, line 68)

`re.findall(r'\.route\(\s*"([^"]+)"', content)`: the literal `.route(`,
optional whitespace, an opening quote, a nonempty run of non-quote
characters (the captured path) and the closing quote. -/

def matchRoute (l : Str) : Option (Str × Str) :=
  match l with
  | c1 :: c2 :: c3 :: c4 :: c5 :: c6 :: c7 :: rest =>
    if c1 = '.' ∧ c2 = 'r' ∧ c3 = 'o' ∧ c4 = 'u' ∧ c5 = 't' ∧ c6 = 'e' ∧ c7 = '(' then
      match rest.dropWhile isWS with
      | q :: r2 =>
        if q = '"' then
          let p := r2.takeWhile (fun c => !(c = '"'))
          if p.isEmpty then none
          else
            match r2.dropWhile (fun c => !(c = '"')) with
            | q2 :: r3 => if q2 = '"' then some (p, r3) else none
            | [] => none
        else none
      | [] => none
    else none
  | _ => none

/-- Left-to-right `findall` scan for `.route(` registrations; `skip` as
in `scanRulesAux`. -/
def scanRoutes : Nat → Str → List Str
  | _, [] => []
  | Nat.succ k, _ :: t => scanRoutes k t
  | 0, c :: t =>
    match matchRoute (c :: t) with
    | some (p, r3) => p :: scanRoutes (t.length - r3.length) t
    | none => scanRoutes 0 t

/-- `extract_code_endpoints` of `verify_documentation.py` over the
contents of the scanned `.rs` files (set union of per-file matches). -/
def extract_code_endpoints_files (files : List Str) : List Str :=
  (files.map (scanRoutes 0)).flatten

theorem matchRoute_starts {l p r : Str} (h : matchRoute l = some (p, r)) :
    (cs ".route(").isPrefixOf l = true := by
  unfold matchRoute at h
  split at h
  · next c1 c2 c3 c4 c5 c6 c7 rest =>
    split at h
    · next hc =>
      obtain ⟨rfl, rfl, rfl, rfl, rfl, rfl, rfl⟩ := hc
      simp [cs, List.isPrefixOf]
    · exact absurd h (by simp)
  · exact absurd h (by simp)

theorem scanRoutes_cons_none {c : Char} {t : Str} (hm : matchRoute (c :: t) = none) :
    scanRoutes 0 (c :: t) = scanRoutes 0 t := by
  show (match matchRoute (c :: t) with
    | some (p, r3) => p :: scanRoutes (t.length - r3.length) t
    | none => scanRoutes 0 t) = _
  rw [hm]

/-- A file with no occurrence of the literal `.route(` contributes no
endpoints. -/
theorem scanRoutes_eq_nil_of_no_route : ∀ (s : Str),
    containsSub s (cs ".route(") = false → scanRoutes 0 s = [] := by
  intro s
  induction s with
  | nil => intro _; rfl
  | cons c t ih =>
    intro h
    simp only [containsSub, Bool.or_eq_false_iff] at h
    cases hm : matchRoute (c :: t) with
    | none => rw [scanRoutes_cons_none hm]; exact ih h.2
    | some pr =>
      obtain ⟨p, r⟩ := pr
      exact absurd (matchRoute_starts hm) (by simp [h.1])

theorem extract_code_endpoints_files_nil {files : List Str}
    (h : ∀ f ∈ files, containsSub f (cs ".route(") = false) :
    extract_code_endpoints_files files = [] := by
  unfold extract_code_endpoints_files
  induction files with
  | nil => rfl
  | cons f fs ih =>
    simp only [List.map_cons, List.flatten_cons]
    rw [scanRoutes_eq_nil_of_no_route f (h f (by simp)), List.nil_append]
    exact ih (fun g hg => h g (by simp [hg]))

/-! ## The Consistency Engine (`verify_documentation.py` main, lines 147-243) -/

/-- `check_chain_documented` (lines 135-144): a chain is documented when
`CHAINS.md` exists and contains the literal `### Chain N:`. -/
def check_chain_documented (n : Nat) (chains_file : Option Str) : Bool :=
  match chains_file with
  | none => false
  | some content => containsSub content (cs "### Chain " ++ cs (toString n) ++ cs ":")

/-- The issue count accumulated by `main`: undocumented endpoints
(code minus spec, as sets), undefined rules (code minus RULES.md), and
code-referenced chains with no `### Chain N:` heading. -/
def verify_issues (codeE specE codeR defR : List Str) (codeC : List Nat)
    (chains : Option Str) : Nat :=
  (codeE.dedup.filter (fun e => !decide (e ∈ specE))).length +
    (codeR.dedup.filter (fun r => !decide (r ∈ defR))).length +
    (codeC.dedup.filter (fun n => !check_chain_documented n chains)).length

/-- The process exit code of `verify_documentation.py` `main`
(lines 237-243): `0` when no issues were found, `1` otherwise. -/
def verify_exit (codeE specE codeR defR : List Str) (codeC : List Nat)
    (chains : Option Str) : Nat :=
  if verify_issues codeE specE codeR defR codeC chains = 0 then 0 else 1

theorem length_filter_eq_zero {α : Type} {p : α → Bool} {l : List α} :
    (l.filter p).length = 0 ↔ ∀ a ∈ l, ¬p a = true := by
  rw [List.length_eq_zero, List.filter_eq_nil_iff]

theorem verify_exit_eq_zero_iff (codeE specE codeR defR : List Str) (codeC : List Nat)
    (chains : Option Str) :
    verify_exit codeE specE codeR defR codeC chains = 0 ↔
      (∀ e ∈ codeE, e ∈ specE) ∧ (∀ r ∈ codeR, r ∈ defR) ∧
        (∀ n ∈ codeC, check_chain_documented n chains = true) := by
  unfold verify_exit verify_issues
  constructor
  · intro h
    split at h
    · next hz =>
      have h1 : ∀ e ∈ codeE.dedup, ¬(!decide (e ∈ specE)) = true := by
        rw [← length_filter_eq_zero]; omega
      have h2 : ∀ r ∈ codeR.dedup, ¬(!decide (r ∈ defR)) = true := by
        rw [← length_filter_eq_zero]; omega
      have h3 : ∀ n ∈ codeC.dedup, ¬(!check_chain_documented n chains) = true := by
        rw [← length_filter_eq_zero]; omega
      refine ⟨fun e he => ?_, fun r hr => ?_, fun n hn => ?_⟩
      · have := h1 e (List.mem_dedup.2 he); simpa using this
      · have := h2 r (List.mem_dedup.2 hr); simpa using this
      · have := h3 n (List.mem_dedup.2 hn); simpa using this
    · exact absurd h (by simp)
  · rintro ⟨h1, h2, h3⟩
    have e1 : (codeE.dedup.filter (fun e => !decide (e ∈ specE))).length = 0 := by
      rw [length_filter_eq_zero]
      intro a ha
      simp [h1 a (List.mem_dedup.1 ha)]
    have e2 : (codeR.dedup.filter (fun r => !decide (r ∈ defR))).length = 0 := by
      rw [length_filter_eq_zero]
      intro a ha
      simp [h2 a (List.mem_dedup.1 ha)]
    have e3 : (codeC.dedup.filter (fun n => !check_chain_documented n chains)).length = 0 := by
      rw [length_filter_eq_zero]
      intro a ha
      simp [h3 a (List.mem_dedup.1 ha)]
    simp [e1, e2, e3]

/-! ## Rule checker (`check_rules.py` main, lines 96-178) -/

/-- Lexicographic comparison of character lists (Python string `<`
by code point, used by `sorted`). -/
def strLe (a b : Str) : Bool :=
  match a, b with
  | [], _ => true
  | _ :: _, [] => false
  | x :: xs, y :: ys => if x = y then strLe xs ys else decide (x < y)

def insertStr (a : Str) : List Str → List Str
  | [] => [a]
  | b :: l => if strLe a b then a :: b :: l else b :: insertStr a l

/-- `sorted` over rule ids. -/
def sortStrs : List Str → List Str
  | [] => []
  | a :: l => insertStr a (sortStrs l)

theorem mem_insertStr {t a : Str} {l : List Str} : t ∈ insertStr a l ↔ t = a ∨ t ∈ l := by
  induction l with
  | nil => simp [insertStr]
  | cons b l ih =>
    unfold insertStr
    by_cases h : strLe a b = true
    · simp [h]
    · simp only [if_neg h, List.mem_cons, ih]
      tauto

theorem mem_sortStrs {t : Str} {l : List Str} : t ∈ sortStrs l ↔ t ∈ l := by
  induction l with
  | nil => simp [sortStrs]
  | cons a l ih => simp [sortStrs, mem_insertStr, ih]

/-- `^###\s+Rule\s+(R-[A-Z]+-\d+):\s*(.*)$` on one line of `RULES.md`
(`check_rules.py` line 87), returning the rule id and the stripped
description (`description.strip()`, line 91). -/
def matchDefinedRule (l : Str) : Option (Str × Str) :=
  match l with
  | c1 :: c2 :: c3 :: rest =>
    if c1 = '#' ∧ c2 = '#' ∧ c3 = '#' then
      if (rest.takeWhile isWS).isEmpty then none
      else
        match rest.dropWhile isWS with
        | c4 :: c5 :: c6 :: c7 :: r2 =>
          if c4 = 'R' ∧ c5 = 'u' ∧ c6 = 'l' ∧ c7 = 'e' then
            if (r2.takeWhile isWS).isEmpty then none
            else
              match parseRuleCore (r2.dropWhile isWS) with
              | some (tok, r3) =>
                match r3 with
                | c8 :: r4 => if c8 = ':' then some (tok, trimStr r4) else none
                | [] => none
              | none => none
          else none
        | _ => none
    else none
  | _ => none

/-- `extract_defined_rules` of `check_rules.py` (lines 74-93) as the
association list of definition headers in line order (Python dict
assignment is last-write-wins; `check_rules.py` only tests key
membership). -/
def extract_defined_rules_lines (lines : List Str) : List (Str × Str) :=
  lines.filterMap matchDefinedRule

/-- The referenced-rule keys of `check_rules.py` `main`: all rule ids
extracted from the code lines, deduplicated and sorted
(`sorted(code_rules.keys())`, line 138). -/
def code_rule_keys (codeFiles : List (List Str)) : List Str :=
  sortStrs ((codeFiles.flatMap (fun f => f.flatMap extract_rules_from_code_line)).dedup)

/-- The valid/missing partition and exit code of `check_rules.py` `main`
(lines 135-178). -/
def check_rules_main (codeFiles : List (List Str)) (rulesLines : List Str) :
    List Str × List Str × Nat :=
  let keys := code_rule_keys codeFiles
  let defKeys := (extract_defined_rules_lines rulesLines).map Prod.fst
  let valid := keys.filter (fun k => decide (k ∈ defKeys))
  let missing := keys.filter (fun k => !decide (k ∈ defKeys))
  (valid, missing, if missing.isEmpty then 0 else 1)

/-! ## Bootstrap verifier (`bootstrap_context.py`) -/

/-- The `critical_vars` table of `check_environment_variables`
(lines 109-114). -/
def critical_vars : List (Str × Str) :=
  [(cs "DATABASE_URL", cs "PostgreSQL connection string"),
   (cs "SPOOKY_ISSUER", cs "Issuer URL"),
   (cs "SPOOKY_JWT_SECRET", cs "JWT signing secret"),
   (cs "SPOOKY_PEPPER", cs "Password pepper salt")]

/-- `os.environ.get` over an explicit environment. -/
def lookupEnv (env : List (Str × Str)) (name : Str) : Option Str :=
  (env.find? (fun p => decide (p.1 = name))).map Prod.snd

/-- `"SECRET" in var_name or "PEPPER" in var_name or "PASSWORD" in
var_name` (line 120). -/
def isSensitiveName (name : Str) : Bool :=
  containsSub name (cs "SECRET") || containsSub name (cs "PEPPER") ||
    containsSub name (cs "PASSWORD")

/-- `value[:8] + "..." if len(value) > 8 else "***"` (line 121). -/
def maskValue (v : Str) : Str :=
  if 8 < v.length then v.take 8 ++ cs "..." else cs "***"

/-- The found-list line for a set variable (lines 120-124). -/
def envFoundEntry (name v : Str) : Str :=
  if isSensitiveName name then name ++ cs "=" ++ maskValue v else name ++ cs "=" ++ v

/-- `check_environment_variables` (lines 104-128): found lines and
missing lines, in table order.  A variable set to the empty string is
falsy in Python and counts as missing. -/
def check_environment_variables (env : List (Str × Str)) : List Str × List Str :=
  critical_vars.foldl (fun acc nv =>
    match lookupEnv env nv.1 with
    | some v =>
      if v.isEmpty then (acc.1, acc.2 ++ [nv.1 ++ cs " (" ++ nv.2 ++ cs ")"])
      else (acc.1 ++ [envFoundEntry nv.1 v], acc.2)
    | none => (acc.1, acc.2 ++ [nv.1 ++ cs " (" ++ nv.2 ++ cs ")"])) ([], [])

/-- The `critical_files` table (lines 81-92); entries are rendered as
`description: rel_path`. -/
def critical_files : List (Str × Str) :=
  [(cs "multipass/directives/BOOTSTRAP.md", cs "Bootstrap protocol"),
   (cs "multipass/directives/CHAINS.md", cs "9-Chain specification"),
   (cs "multipass/directives/RULES.md", cs "Security/business rules"),
   (cs "multipass/directives/AGENTS.md", cs "Agent taxonomy"),
   (cs "multipass/directives/progress.md", cs "Phase tracking"),
   (cs "SpookyID_stack/SPEC.md", cs "System architecture"),
   (cs "SpookyID_stack/backend/Cargo.toml", cs "Backend manifest"),
   (cs "SpookyID_stack/scripts/bootstrap.sh", cs "Bootstrap script"),
   (cs "SpookyID_stack/scripts/test.sh", cs "Test suite"),
   (cs "multipass/.claude/settings.json", cs "Claude Code config")]

/-- `check_critical_files` (lines 76-101) over the set of existing
paths. -/
def check_critical_files (files : List Str) : List Str × List Str :=
  critical_files.foldl (fun acc pd =>
    if decide (pd.1 ∈ files) then (acc.1 ++ [pd.2 ++ cs ": " ++ pd.1], acc.2)
    else (acc.1, acc.2 ++ [pd.2 ++ cs ": " ++ pd.1])) ([], [])

/-- `check_built_binaries` (lines 131-150): the loop breaks at the first
binary found; the `for`-`else` adds one missing entry when neither
exists.  The found entry's size rendering is omitted (only presence
matters downstream). -/
def check_built_binaries (files : List Str) : List Str × List Str :=
  if decide (cs "SpookyID_stack/backend/target/release/oidc_service" ∈ files) then
    ([cs "SpookyID_stack/backend/target/release/oidc_service"], [])
  else if decide (cs "SpookyID_stack/backend/target/debug/oidc_service" ∈ files) then
    ([cs "SpookyID_stack/backend/target/debug/oidc_service"], [])
  else ([], [cs "OIDC service binary (run: cd backend && cargo build --release)"])

/-- The state `bootstrap_context.py` `main` depends on: tool presence,
existing paths, the environment, `--fix` mode and whether a `--fix`
rebuild would fail. -/
structure BootstrapWorld where
  cargoOk : Bool
  nodeOk : Bool
  python3Ok : Bool
  dockerOk : Bool
  files : List Str
  env : List (Str × Str)
  fixMode : Bool
  buildFails : Bool

/-- `main` of `bootstrap_context.py` (lines 153-288) as its exit code.
Missing prerequisites abort with 1; missing critical files add to
`issues_found`; missing environment variables and missing binaries are
warn-only (binaries add an issue only when a `--fix` rebuild fails); the
final check-5 subprocess never changes `issues_found`.  The exit is 0
iff `issues_found == 0 and not missing_vars`. -/
def bootstrap_main (w : BootstrapWorld) : Nat :=
  let prereqIssues := (if w.cargoOk then 0 else 1) + (if w.nodeOk then 0 else 1) +
    (if w.python3Ok then 0 else 1)
  if 0 < prereqIssues then 1
  else
    let missingFiles := (check_critical_files w.files).2
    let missingVars := (check_environment_variables w.env).2
    let missingBins := (check_built_binaries w.files).2
    let buildIssue := if w.fixMode ∧ ¬missingBins.isEmpty ∧ w.buildFails then 1 else 0
    if missingFiles.length + buildIssue = 0 ∧ missingVars.isEmpty then 0 else 1

/-! ## Progress State Reader (`generate_checkpoint.py`, `read_progress_md`)

The regexes of lines 66-80 over the document text, in the line model:

* phase: `### Phase \d+:.*?[WARN]️ IN PROGRESS \((\d+)%\)` — note that in
  the source `[WARN]` is a character class (one of `W`,`A`,`R`,`N`)
  followed by U+FE0F; the pattern spans no newline, so the leftmost match
  lives inside a single line;
* blockers: `## Dependencies & Blockers.*?^##` (DOTALL+MULTILINE): from
  the first occurrence of the marker, lazily, to the first subsequent
  line that starts with `##`; items `^\d+\.\s+\*\*(.+?)\*\*` inside;
* completions: `## Recent Completions.*?^##`, items `^- ✅ (.+)$`. -/

def isWarnChar (c : Char) : Bool := c = 'W' || c = 'A' || c = 'R' || c = 'N'

/-- Length of a match of `[WARN]️ IN PROGRESS \((\d+)%\)` at the head of
`l` (the tail of the phase pattern). -/
def phaseTailLen (l : Str) : Option Nat :=
  match l with
  | c1 :: c2 :: rest =>
    if isWarnChar c1 ∧ c2 = '\uFE0F' then
      if (cs " IN PROGRESS (").isPrefixOf rest then
        let r2 := rest.drop 14
        let ds := r2.takeWhile Char.isDigit
        if ds.isEmpty then none
        else
          match r2.drop ds.length with
          | c3 :: c4 :: _ => if c3 = '%' ∧ c4 = ')' then some (18 + ds.length) else none
          | _ => none
      else none
    else none
  | _ => none

/-- Lazy `.*?`: the smallest offset at which the tail pattern matches,
plus that match's length. -/
def findPhaseTail (l : Str) : Option Nat :=
  match phaseTailLen l with
  | some t => some t
  | none =>
    match l with
    | [] => none
    | _ :: t => (findPhaseTail t).map (· + 1)

/-- Length of the leftmost phase-pattern match starting at the head of
`l` (`group(0)`), if any. -/
def phaseAt (l : Str) : Option Nat :=
  if (cs "### Phase ").isPrefixOf l then
    let r := l.drop 10
    let ds := r.takeWhile Char.isDigit
    if ds.isEmpty then none
    else
      match r.drop ds.length with
      | c :: r2 =>
        if c = ':' then (findPhaseTail r2).map (fun k => 11 + ds.length + k)
        else none
      | [] => none
  else none

/-- Leftmost phase match within one line, returned verbatim
(`phase_match.group(0)`); `phaseAt [] = none`, so the empty line never
matches. -/
def linePhase : Str → Option Str
  | [] => none
  | c :: t =>
    match phaseAt (c :: t) with
    | some n => some ((c :: t).take n)
    | none => linePhase t

/-- `re.search` for the phase over the whole document. -/
def findPhase : List Str → Option Str
  | [] => none
  | l :: ls =>
    match linePhase l with
    | some m => some m
    | none => findPhase ls

/-- The lazy section span `marker.*?^##`: the lines strictly between the
first line containing `marker` and the first subsequent line starting
with `##`; `none` when either end is missing (then `re.search` fails and
the extracted list stays empty). -/
def sectionBody (marker : Str) : List Str → Option (List Str)
  | [] => none
  | l :: ls =>
    if containsSub l marker then
      match ls.findIdx? (fun x => (cs "##").isPrefixOf x) with
      | some j => some (ls.take j)
      | none => none
    else sectionBody marker ls

/-- `noHeadingAfterFirst marker lines`: after the first line containing
`marker` no line starts with `##` (so `marker.*?^##` cannot match). -/
def noHeadingAfterFirst (marker : Str) : List Str → Bool
  | [] => true
  | l :: ls =>
    if containsSub l marker then ls.all (fun x => !(cs "##").isPrefixOf x)
    else noHeadingAfterFirst marker ls

/-- `(.+?)\*\*`: at least one character, lazily, up to the first `**`. -/
def capLen (l : Str) : Option Nat :=
  match l with
  | '*' :: '*' :: _ => some 0
  | [] => none
  | _ :: t => (capLen t).map (· + 1)

def capToStars (l : Str) : Option Str :=
  match l with
  | [] => none
  | c :: t => (capLen t).map (fun k => c :: t.take k)

/-- One blocker item: `^\d+\.\s+\*\*(.+?)\*\*` on a line. -/
def blockerItem (l : Str) : Option Str :=
  let ds := l.takeWhile Char.isDigit
  if ds.isEmpty then none
  else
    match l.drop ds.length with
    | c1 :: r1 =>
      if c1 = '.' then
        if (r1.takeWhile isWS).isEmpty then none
        else
          match r1.dropWhile isWS with
          | c2 :: c3 :: r2 => if c2 = '*' ∧ c3 = '*' then capToStars r2 else none
          | _ => none
      else none
    | [] => none

/-- One completion item: `^- ✅ (.+)$` on a line. -/
def completionItem (l : Str) : Option Str :=
  if (cs "- ✅ ").isPrefixOf l then
    let r := l.drop 4
    if r.isEmpty then none else some r
  else none

structure ProgressState where
  current_phase : Str
  active_blockers : List Str
  recent_completions : List Str
deriving DecidableEq, Repr

/-- `read_progress_md` (lines 49-82) applied to an existing
`progress.md` split into lines. -/
def read_progress_md (lines : List Str) : ProgressState :=
  { current_phase := (findPhase lines).getD (cs "Unknown"),
    active_blockers :=
      (((sectionBody (cs "## Dependencies & Blockers") lines).getD []).filterMap
        blockerItem).take 5,
    recent_completions :=
      (((sectionBody (cs "## Recent Completions") lines).getD []).filterMap
        completionItem).take 5 }

/-- `read_progress_md` including the missing-file default (lines 53-60). -/
def read_progress (doc : Option (List Str)) : ProgressState :=
  match doc with
  | none => ⟨cs "Unknown", [], []⟩
  | some lines => read_progress_md lines

/-! ## Checkpoint generation (`generate_checkpoint.py`, lines 85-214) -/

/-- Line 108: the Session Context message line; an empty message is
falsy in Python and renders as `(none provided)`. -/
def userMessageLine (msg : Option Str) : Str :=
  match msg with
  | some m =>
    if m.isEmpty then cs "**User Message**: (none provided)"
    else cs "**User Message**: " ++ m
  | none => cs "**User Message**: (none provided)"

/-- Lines 122-126: rendered Recent Completions bullets. -/
def completionLines (st : ProgressState) : List Str :=
  match st.recent_completions with
  | [] => [cs "- (none found in progress.md)"]
  | l => l.map (fun c => cs "- ✅ " ++ c)

def numberLines : Nat → List Str → List Str
  | _, [] => []
  | i, b :: t => (cs (toString i) ++ cs ". " ++ b) :: numberLines (i + 1) t

/-- Lines 130-134: rendered Active Blockers as a numbered list. -/
def blockerLines (st : ProgressState) : List Str :=
  match st.active_blockers with
  | [] => [cs "- (none found in progress.md)"]
  | l => numberLines 1 l

/-- Lines 183-194: the Next Actions suggestion list keyed on substrings
of the current phase. -/
def nextActions (phase : Str) : List Str :=
  if containsSub phase (cs "Phase 2") then
    [cs "1. Complete Multipass OIDC client implementation",
     cs "2. Implement Chain 9 (Leasing) client-side integration",
     cs "3. Build account creation wizard UI"]
  else if containsSub phase (cs "Phase 3") then
    [cs "1. Start SpookySocial demo site development",
     cs "2. Implement OIDC relying party integration",
     cs "3. Create QR code login flow"]
  else
    [cs "1. Check progress.md for current priorities",
     cs "2. Run bootstrap_context.py to verify system state",
     cs "3. Continue with active phase tasks"]

/-- The generated checkpoint document, split at newlines, mirroring the
template of lines 99-209 (`{timestamp}` on the `cat` line is literal in
the source: that chunk is not an f-string). -/
def checkpointLines (ts gen : Str) (msg : Option Str) (st : ProgressState) : List Str :=
  [cs "# SpookyID Session Checkpoint",
   [],
   cs "**Generated**: " ++ gen,
   cs "**Checkpoint ID**: " ++ ts,
   [],
   cs "---",
   [],
   cs "## Session Context",
   [],
   userMessageLine msg,
   [],
   cs "---",
   [],
   cs "## Current Work State",
   [],
   cs "### Active Phase",
   [],
   st.current_phase,
   [],
   cs "### Recent Completions",
   []] ++
  completionLines st ++
  [[], cs "### Active Blockers", []] ++
  blockerLines st ++
  [[],
   cs "---",
   [],
   cs "## Restoration Protocol",
   [],
   cs "When resuming from this checkpoint:",
   [],
   cs "1. **Read BOOTSTRAP.md** for 5-minute context restore",
   cs "2. **Read progress.md** for current phase status",
   cs "3. **Read CHAINS.md** for trust architecture",
   cs "4. **Read this checkpoint** for session-specific context",
   [],
   cs "### Quick Restore Commands",
   [],
   cs "```bash",
   cs "# Navigate to project",
   cs "cd C:\\spookyos\\SpookyID",
   [],
   cs "# Read critical files",
   cs "cat multipass/directives/BOOTSTRAP.md",
   cs "cat multipass/directives/progress.md",
   cs "cat multipass/directives/checkpoints/checkpoint_{timestamp}.md",
   [],
   cs "# Verify system state",
   cs "cd multipass/directives/execution",
   cs "python bootstrap_context.py",
   cs "```",
   [],
   cs "---",
   [],
   cs "## Files Modified in This Session",
   [],
   cs "(To be filled manually if needed - track with git status)",
   [],
   cs "```bash",
   cs "git status",
   cs "git diff",
   cs "```",
   [],
   cs "---",
   [],
   cs "## Next Actions",
   [],
   cs "Based on current state:",
   []] ++
  nextActions st.current_phase ++
  [[],
   cs "---",
   [],
   cs "## Critical Reminders",
   [],
   cs "- **User Sovereignty**: Never design features that give SpookyID custody",
   cs "- **Privacy by Default**: Never log plaintext PII, never correlate across sites",
   cs "- **Fail-Closed Security**: Reject on error, don't accept by default",
   cs "- **BBS+ Library**: NON-NEGOTIABLE - located at Resources/bbs-signatures-master",
   [],
   cs "---",
   [],
   cs "**Checkpoint saved**. Use `restore_checkpoint.py` to load this state.",
   []]

/-! ## Checkpoint store state -/

/-- A file in the checkpoints directory: name, modification time, and
content in lines. -/
structure FsFile where
  name : Str
  mtime : Nat
  content : List Str
deriving DecidableEq, Repr

def checkpoint_filename (ts : Str) : Str := cs "checkpoint_" ++ ts ++ cs ".md"

/-- `Path.write_text`: replaces the content of an existing file of the
same name, otherwise adds the file. -/
def writeFile (fs : List FsFile) (name : Str) (mtime : Nat) (content : List Str) :
    List FsFile :=
  if fs.any (fun f => decide (f.name = name)) then
    fs.map (fun f => if f.name = name then ⟨name, mtime, content⟩ else f)
  else fs ++ [⟨name, mtime, content⟩]

/-- `generate_checkpoint` (lines 85-214): read the progress state, render
the document, write `checkpoint_<ts>.md`, return the new directory state
and the file name. -/
def generate_checkpoint (fs : List FsFile) (ts gen : Str) (now : Nat)
    (progress : Option (List Str)) (msg : Option Str) : List FsFile × Str :=
  let st := read_progress progress
  let name := checkpoint_filename ts
  (writeFile fs name now (checkpointLines ts gen msg st), name)

/-! ## Checkpoint restore (`restore_checkpoint.py`) -/

def trimR (l : Str) : Str := (l.reverse.dropWhile isWS).reverse

/-- `\s*(.+)` after the first occurrence of a literal, followed by
`.strip()` of the captured group (used by `get_checkpoint_summary` for
the `**Generated**:` and `**User Message**:` fields).  `tail` is the
rest of the occurrence's line; `ls` the following lines. -/
def capFrom (tail : Str) (ls : List Str) : Option Str :=
  if !(trimStr tail).isEmpty then some (trimStr tail)
  else
    match ls.find? (fun l => !(trimStr l).isEmpty) with
    | some l => some (trimStr l)
    | none => if !tail.isEmpty || ls.any (fun l => !l.isEmpty) then some [] else none

def searchCap (pat : Str) : List Str → Option Str
  | [] => none
  | l :: ls =>
    match splitAtFirst pat l with
    | some (_, tail) => capFrom tail ls
    | none => searchCap pat ls

/-- `### Active Phase\s*\n\n(.+)` capture, `.strip()`ped: walking the
blank run after a line that ends with the marker, the capture is the
line after the last empty line of the run (greedy `\s*` backs off to the
latest adjacent newline pair). -/
def capAfterBlank : Bool → Option Str → List Str → Option Str
  | _, best, [] => best.map trimStr
  | prevEmpty, best, l :: ls =>
    let best' := if prevEmpty ∧ ¬l.isEmpty then some l else best
    if !(trimStr l).isEmpty then best'.map trimStr
    else capAfterBlank l.isEmpty best' ls

def searchActivePhase : List Str → Option Str
  | [] => none
  | l :: ls =>
    if (cs "### Active Phase").isSuffixOf (trimR l) then
      match capAfterBlank false none ls with
      | some r => some r
      | none => searchActivePhase ls
    else searchActivePhase ls

structure CheckpointSummary where
  timestamp : Str
  user_message : Str
  current_phase : Str
deriving DecidableEq, Repr

/-- `get_checkpoint_summary` (lines 63-89) over the checkpoint lines. -/
def get_checkpoint_summary (lines : List Str) : CheckpointSummary :=
  { timestamp := (searchCap (cs "**Generated**:") lines).getD (cs "Unknown"),
    user_message := (searchCap (cs "**User Message**:") lines).getD (cs "None"),
    current_phase := (searchActivePhase lines).getD (cs "Unknown") }

/-- The glob `checkpoint_*.md` on a file name. -/
def globCheckpoint (name : Str) : Bool :=
  (cs "checkpoint_").isPrefixOf name && (cs ".md").isSuffixOf name

/-- Stable descending insertion by mtime: a later-inserted file goes
after earlier files of the same mtime, matching
`sorted(..., key=st_mtime, reverse=True)`. -/
def insertDesc (a : FsFile) : List FsFile → List FsFile
  | [] => [a]
  | b :: l => if b.mtime < a.mtime then a :: b :: l else b :: insertDesc a l

def sortByMtimeDesc (files : List FsFile) : List FsFile :=
  files.foldl (fun acc f => insertDesc f acc) []

/-- `list_checkpoints` (lines 49-60): glob and sort newest-first; an
absent directory yields `[]`. -/
def list_checkpoints (dirExists : Bool) (files : List FsFile) : List FsFile :=
  if dirExists then sortByMtimeDesc (files.filter (fun f => globCheckpoint f.name)) else []

/-- `main` of `restore_checkpoint.py` (lines 122-188): returns the exit
code, the name of the checkpoint displayed (none on failure or in
`--list` mode), and the resulting directory state (restore never
writes). -/
def restore_main (dirExists : Bool) (files : List FsFile) (listMode : Bool)
    (nameArg : Option Str) : Nat × Option Str × List FsFile :=
  if !dirExists then (1, none, files)
  else
    match list_checkpoints dirExists files with
    | [] => (1, none, files)
    | c :: _ =>
      if listMode then (0, none, files)
      else
        match nameArg with
        | some nm =>
          if files.any (fun f => decide (f.name = nm)) then (0, some nm, files)
          else (1, none, files)
        | none => (0, some c.name, files)

/-! ## Spec-side readers for the recorded ProgressState (C2)

The claim compares the ProgressState recorded in the checkpoint document
with the state computed from the progress document.  The repository has
no code that parses blockers and completions back out of a checkpoint,
so the recorded state is read back by the following document readers,
written against the template's section layout. -/

def afterFirst (marker : Str) : List Str → Option (List Str)
  | [] => none
  | l :: ls => if l = marker then some ls else afterFirst marker ls

def beforeFirst (marker : Str) (ls : List Str) : List Str :=
  ls.takeWhile (fun l => !decide (l = marker))

/-- The recorded Active Phase: the first non-blank line after the
`### Active Phase` heading. -/
def spec_recordedPhase (lines : List Str) : Option Str :=
  ((afterFirst (cs "### Active Phase") lines).getD []).find?
    (fun l => !(trimStr l).isEmpty)

def spec_completionRead (l : Str) : Option Str :=
  if (cs "- ✅ ").isPrefixOf l then some (l.drop 4) else none

/-- The recorded Recent Completions: the `- ✅ ` bullets between the
`### Recent Completions` and `### Active Blockers` headings. -/
def spec_recordedCompletions (lines : List Str) : List Str :=
  (beforeFirst (cs "### Active Blockers")
    ((afterFirst (cs "### Recent Completions") lines).getD [])).filterMap
    spec_completionRead

def spec_blockerRead (l : Str) : Option Str :=
  match l with
  | c :: '.' :: ' ' :: rest => if c.isDigit then some rest else none
  | _ => none

/-- The recorded Active Blockers: the numbered items between the
`### Active Blockers` heading and the following `---` rule. -/
def spec_recordedBlockers (lines : List Str) : List Str :=
  (beforeFirst (cs "---")
    ((afterFirst (cs "### Active Blockers") lines).getD [])).filterMap
    spec_blockerRead

/-! ### Helper lemmas for the checkpoint round trip -/

theorem trimStr_eq_nil_iff {l : Str} : trimStr l = [] ↔ ∀ c ∈ l, isWS c = true := by
  constructor
  · intro h
    cases hd : l.dropWhile isWS with
    | nil => exact List.dropWhile_eq_nil_iff.1 hd
    | cons c t =>
      exfalso
      unfold trimStr at h
      rw [hd] at h
      have h2 : (c :: t : Str).reverse.dropWhile isWS = [] := by
        have := congrArg List.reverse h
        simpa using this
      have h3 : ∀ a ∈ (c :: t : Str), isWS a = true := by
        intro a ha
        exact List.dropWhile_eq_nil_iff.1 h2 a (List.mem_reverse.2 ha)
      have h4 : isWS c = false := by
        have h5 := List.head?_dropWhile_not isWS l
        rw [hd] at h5
        simpa using h5
      rw [h3 c (by simp)] at h4
      exact absurd h4 (by simp)
  · intro h
    unfold trimStr
    rw [List.dropWhile_eq_nil_iff.2 h]
    rfl

theorem trimStr_cons_ws {c : Char} {l : Str} (h : isWS c = true) :
    trimStr (c :: l) = trimStr l := by
  unfold trimStr
  rw [List.dropWhile_cons_of_pos h]

theorem ne_of_head? {a b : Str} (h : a.head? ≠ b.head?) : a ≠ b :=
  fun e => h (e ▸ rfl)

theorem append_ne_of_head {a b : Str} (x : Str) (ha : a ≠ []) (h : a.head? ≠ b.head?) :
    a ++ x ≠ b := by
  intro e
  rw [← e, List.head?_append_of_ne_nil _ ha] at h
  exact h rfl

theorem prefixed_ne {a t : Str} (hne : a.isPrefixOf t = false) (x : Str) : a ++ x ≠ t := by
  intro h
  have h2 : a.isPrefixOf t = true := List.isPrefixOf_iff_prefix.2 ⟨x, h⟩
  rw [hne] at h2
  exact absurd h2 (by simp)

theorem userMessageLine_head (msg : Option Str) : (userMessageLine msg).head? = some '*' := by
  cases msg with
  | none => rfl
  | some m =>
    show (if m.isEmpty = true then cs "**User Message**: (none provided)"
      else cs "**User Message**: " ++ m).head? = some '*'
    by_cases h : m.isEmpty = true
    · rw [if_pos h]; decide
    · rw [if_neg h, List.head?_append_of_ne_nil _ (by decide)]; decide

theorem phase_ne_of_cases {m t : Str}
    (hp : m = cs "Unknown" ∨ (cs "### Phase ").isPrefixOf m = true)
    (h1 : (cs "Unknown" : Str) ≠ t) (h2 : (cs "### Phase ").isPrefixOf t = false) :
    m ≠ t := by
  rcases hp with rfl | hp
  · exact h1
  · obtain ⟨r, hr⟩ := List.isPrefixOf_iff_prefix.1 hp
    rw [← hr]
    exact prefixed_ne h2 r

theorem isPrefixOf_take {p l : Str} {n : Nat} (h : p.isPrefixOf l = true)
    (hn : p.length ≤ n) : p.isPrefixOf (l.take n) = true := by
  obtain ⟨r, hr⟩ := List.isPrefixOf_iff_prefix.1 h
  rw [← hr, List.take_append_eq_append_take, List.take_of_length_le hn]
  exact List.isPrefixOf_iff_prefix.2 ⟨_, rfl⟩

theorem phaseAt_some {l : Str} {n : Nat} (h : phaseAt l = some n) :
    (cs "### Phase ").isPrefixOf l = true ∧ 10 ≤ n := by
  unfold phaseAt at h
  by_cases hp : (cs "### Phase ").isPrefixOf l = true
  · refine ⟨hp, ?_⟩
    rw [if_pos hp] at h
    simp only [] at h
    split at h
    · exact absurd h (by simp)
    · split at h
      · next c r2 heq =>
        split at h
        · obtain ⟨k, -, hk⟩ := Option.map_eq_some'.1 h
          omega
        · exact absurd h (by simp)
      · exact absurd h (by simp)
  · rw [if_neg hp] at h
    exact absurd h (by simp)

theorem linePhase_shape : ∀ {l m : Str}, linePhase l = some m →
    (cs "### Phase ").isPrefixOf m = true := by
  intro l
  induction l with
  | nil => intro m h; exact absurd h (by simp [linePhase])
  | cons c t ih =>
    intro m h
    have h2 : (match phaseAt (c :: t) with
        | some n => some ((c :: t : Str).take n)
        | none => linePhase t) = some m := h
    cases hp : phaseAt (c :: t) with
    | some n =>
      rw [hp] at h2
      have h' : some ((c :: t : Str).take n) = some m := h2
      injection h' with h''
      obtain ⟨hpre, hn⟩ := phaseAt_some hp
      rw [← h'']
      exact isPrefixOf_take hpre (le_trans (by decide) hn)
    | none =>
      rw [hp] at h2
      exact ih h2

theorem findPhase_shape : ∀ {lines : List Str} {m : Str}, findPhase lines = some m →
    (cs "### Phase ").isPrefixOf m = true := by
  intro lines
  induction lines with
  | nil => intro m h; exact absurd h (by simp [findPhase])
  | cons l ls ih =>
    intro m h
    unfold findPhase at h
    cases hp : linePhase l with
    | some m2 =>
      rw [hp] at h
      have h' : some m2 = some m := h
      injection h' with h''
      exact h'' ▸ linePhase_shape hp
    | none =>
      rw [hp] at h
      exact ih h

theorem read_progress_phase_cases (p : Option (List Str)) :
    (read_progress p).current_phase = cs "Unknown" ∨
      (cs "### Phase ").isPrefixOf (read_progress p).current_phase = true := by
  cases p with
  | none => left; rfl
  | some lines =>
    have he : (read_progress (some lines)).current_phase =
        (findPhase lines).getD (cs "Unknown") := rfl
    rw [he]
    cases hf : findPhase lines with
    | none => left; simp
    | some m => right; simpa using findPhase_shape hf

theorem read_progress_phase_not_blank (p : Option (List Str)) :
    (trimStr (read_progress p).current_phase).isEmpty = false := by
  rcases read_progress_phase_cases p with h | h
  · rw [h]; decide
  · obtain ⟨r, hr⟩ := List.isPrefixOf_iff_prefix.1 h
    rw [← hr]
    apply isEmpty_false_of_ne_nil
    intro hnil
    have h2 := trimStr_eq_nil_iff.1 hnil '#' (by simp [cs])
    exact absurd h2 (by decide)

theorem read_progress_blockers_le (p : Option (List Str)) :
    (read_progress p).active_blockers.length ≤ 5 := by
  cases p with
  | none => simp [read_progress]
  | some lines => exact List.length_take_le _ _

/-! ### Walking the generated document -/

theorem afterFirst_cons_ne {m l : Str} {ls : List Str} (h : l ≠ m) :
    afterFirst m (l :: ls) = afterFirst m ls := by
  simp [afterFirst, h]

theorem afterFirst_cons_eq (m : Str) (ls : List Str) :
    afterFirst m (m :: ls) = some ls := by
  simp [afterFirst]

theorem beforeFirst_cons_ne {m l : Str} {ls : List Str} (h : l ≠ m) :
    beforeFirst m (l :: ls) = l :: beforeFirst m ls := by
  simp [beforeFirst, List.takeWhile_cons, h]

theorem beforeFirst_cons_eq (m : Str) (ls : List Str) :
    beforeFirst m (m :: ls) = [] := by
  simp [beforeFirst, List.takeWhile_cons]

theorem splitAtFirst_none_of_not_contains {pat l : Str}
    (h : containsSub l pat = false) : splitAtFirst pat l = none := by
  induction l with
  | nil =>
    unfold containsSub at h
    unfold splitAtFirst
    rw [if_neg (by simp_all)]
  | cons c t ih =>
    unfold containsSub at h
    simp only [Bool.or_eq_false_iff] at h
    unfold splitAtFirst
    rw [if_neg (by simp [h.1])]
    show (match splitAtFirst pat t with
      | some (a, b) => some (c :: a, b)
      | none => none) = none
    rw [ih h.2]

theorem splitAtFirst_at_head (pat rest : Str) :
    splitAtFirst pat (pat ++ rest) = some ([], rest) := by
  unfold splitAtFirst
  rw [if_pos (List.isPrefixOf_iff_prefix.2 ⟨rest, rfl⟩)]
  rw [List.drop_left]

theorem searchCap_cons_none {pat l : Str} {ls : List Str}
    (h : splitAtFirst pat l = none) : searchCap pat (l :: ls) = searchCap pat ls := by
  simp [searchCap, h]

theorem searchCap_cons_some {pat l a tail : Str} {ls : List Str}
    (h : splitAtFirst pat l = some (a, tail)) :
    searchCap pat (l :: ls) = capFrom tail ls := by
  simp [searchCap, h]

theorem recover_completions (l : List Str) :
    (l.map (fun c => cs "- ✅ " ++ c)).filterMap spec_completionRead = l := by
  induction l with
  | nil => rfl
  | cons c t ih =>
    simp only [List.map_cons, List.filterMap_cons]
    rw [show spec_completionRead (cs "- ✅ " ++ c) = some c from ?_, ih]
    unfold spec_completionRead
    rw [if_pos (List.isPrefixOf_iff_prefix.2 ⟨c, rfl⟩)]
    rw [show (4 : Nat) = (cs "- ✅ " : Str).length from by decide, List.drop_left]

theorem toString_digit_char (i : Nat) (h1 : 1 ≤ i) (h9 : i ≤ 9) :
    (cs (toString i)).length = 1 ∧ (cs (toString i)).all Char.isDigit = true := by
  interval_cases i <;> exact ⟨by decide, by decide⟩

theorem beforeFirst_append_of_ne (m : Str) : ∀ (pre rest : List Str),
    (∀ a ∈ pre, a ≠ m) → beforeFirst m (pre ++ rest) = pre ++ beforeFirst m rest := by
  intro pre
  induction pre with
  | nil => intro rest _; rfl
  | cons a t ih =>
    intro rest h
    rw [List.cons_append, beforeFirst_cons_ne (h a (by simp)), ih rest (fun b hb => h b (by simp [hb]))]
    rfl

theorem numberLines_head : ∀ (bs : List Str) (i : Nat), 1 ≤ i → i + bs.length ≤ 10 →
    ∀ a ∈ numberLines i bs, ∃ c, a.head? = some c ∧ c.isDigit = true := by
  intro bs
  induction bs with
  | nil => intro i _ _ a ha; exact absurd ha (List.not_mem_nil a)
  | cons b t ih =>
    intro i h1 h10 a ha
    obtain ⟨hl, hd⟩ := toString_digit_char i h1 (by simp at h10; omega)
    obtain ⟨ci, hc⟩ : ∃ c, cs (toString i) = [c] := by
      cases hcs : cs (toString i) with
      | nil => rw [hcs] at hl; simp at hl
      | cons a2 u =>
        rw [hcs] at hl
        simp at hl
        exact ⟨a2, by rw [hl]⟩
    have hcd : ci.isDigit = true := by
      rw [hc] at hd
      simpa using hd
    simp only [numberLines, List.mem_cons] at ha
    rcases ha with rfl | ha
    · refine ⟨ci, ?_, hcd⟩
      rw [hc]
      rfl
    · exact ih (i + 1) (by omega) (by simp at h10 ⊢; omega) a ha

theorem recover_numberLines : ∀ (bs : List Str) (i : Nat), 1 ≤ i → i + bs.length ≤ 10 →
    (numberLines i bs).filterMap spec_blockerRead = bs := by
  intro bs
  induction bs with
  | nil => intro i _ _; rfl
  | cons b t ih =>
    intro i h1 h10
    obtain ⟨hl, hd⟩ := toString_digit_char i h1 (by simp at h10; omega)
    obtain ⟨ci, hc⟩ : ∃ c, cs (toString i) = [c] := by
      cases hcs : cs (toString i) with
      | nil => rw [hcs] at hl; simp at hl
      | cons a u =>
        rw [hcs] at hl
        simp at hl
        exact ⟨a, by rw [hl]⟩
    have hcd : ci.isDigit = true := by
      rw [hc] at hd
      simpa using hd
    simp only [numberLines, List.filterMap_cons]
    rw [hc]
    have hline : ([ci] ++ cs ". " ++ b : Str) = ci :: '.' :: ' ' :: b := by
      simp [cs]
    rw [hline]
    rw [show spec_blockerRead (ci :: '.' :: ' ' :: b) = some b from by
      simp [spec_blockerRead, hcd]]
    rw [ih (i + 1) (by omega) (by simp at h10 ⊢; omega)]

theorem afterFirst_append_of_ne (m : Str) : ∀ (pre rest : List Str),
    (∀ a ∈ pre, a ≠ m) → afterFirst m (pre ++ rest) = afterFirst m rest := by
  intro pre
  induction pre with
  | nil => intro rest _; rfl
  | cons a t ih =>
    intro rest h
    rw [List.cons_append, afterFirst_cons_ne (h a (by simp)),
      ih rest (fun b hb => h b (by simp [hb]))]

theorem completionLines_head (st : ProgressState) :
    ∀ a ∈ completionLines st, a.head? = some '-' := by
  intro a ha
  cases hrc : st.recent_completions with
  | nil =>
    rw [show completionLines st = [cs "- (none found in progress.md)"] from by
      simp [completionLines, hrc]] at ha
    simp at ha
    rw [ha]
    rfl
  | cons c t =>
    rw [show completionLines st = (c :: t).map (fun b => cs "- ✅ " ++ b) from by
      simp [completionLines, hrc]] at ha
    simp only [List.mem_map] at ha
    obtain ⟨b, -, rfl⟩ := ha
    rfl

theorem filterMap_frame (f : Str → Option Str) (h0 : f ([] : Str) = none) (A : List Str) :
    List.filterMap f (([] : Str) :: (A ++ ([] : Str) :: ([] : List Str))) =
      List.filterMap f A := by
  have e1 : List.filterMap f (([] : Str) :: (A ++ ([] : Str) :: ([] : List Str))) =
      List.filterMap f (A ++ ([] : Str) :: ([] : List Str)) := by
    simp [List.filterMap_cons, h0]
  have e2 : List.filterMap f (([] : Str) :: ([] : List Str)) = [] := by
    simp [List.filterMap_cons, h0]
  rw [e1, List.filterMap_append, e2, List.append_nil]

theorem blocker_region (st : ProgressState) (hbl : st.active_blockers.length ≤ 5)
    (rest : List Str) :
    List.filterMap spec_blockerRead
      (beforeFirst (cs "---")
        (([] : Str) :: (blockerLines st ++ ([] : Str) :: cs "---" :: rest))) =
      st.active_blockers := by
  rw [beforeFirst_cons_ne (by decide)]
  cases hab : st.active_blockers with
  | nil =>
    rw [show blockerLines st = [cs "- (none found in progress.md)"] from by
      simp [blockerLines, hab]]
    simp only [List.cons_append, List.nil_append]
    rw [beforeFirst_cons_ne (by decide)]
    rw [beforeFirst_cons_ne (by decide)]
    rw [beforeFirst_cons_eq]
    decide
  | cons b t =>
    have hlen : 1 + (b :: t).length ≤ 10 := by
      rw [hab] at hbl
      simp at hbl ⊢
      omega
    rw [show blockerLines st = numberLines 1 (b :: t) from by simp [blockerLines, hab]]
    rw [beforeFirst_append_of_ne (cs "---") (numberLines 1 (b :: t)) _ (fun a ha => by
      obtain ⟨ci, hci, hcd⟩ := numberLines_head (b :: t) 1 (by omega) hlen a ha
      refine ne_of_head? ?_
      rw [hci, show (cs "---" : Str).head? = some '-' from rfl]
      intro hco
      injection hco with hc2
      rw [hc2] at hcd
      exact absurd hcd (by decide))]
    rw [beforeFirst_cons_ne (by decide)]
    rw [beforeFirst_cons_eq]
    rw [filterMap_frame spec_blockerRead (by decide),
      recover_numberLines (b :: t) 1 (by omega) hlen]

/-! ### The round-trip components (C2) -/

theorem c2_message (ts gen x : Str) (st : ProgressState)
    (hx1 : x ≠ []) (hx3 : trimStr x = x)
    (hgen : containsSub (cs "**Generated**: " ++ gen) (cs "**User Message**:") = false)
    (hts : containsSub (cs "**Checkpoint ID**: " ++ ts) (cs "**User Message**:") = false) :
    (get_checkpoint_summary (checkpointLines ts gen (some x) st)).user_message = x := by
  have hum : userMessageLine (some x) = cs "**User Message**:" ++ (' ' :: x) := by
    have h1 : userMessageLine (some x) = cs "**User Message**: " ++ x := by
      simp [userMessageLine, isEmpty_false_of_ne_nil hx1]
    have h2 : (cs "**User Message**: " : Str) = cs "**User Message**:" ++ [' '] := by decide
    rw [h1, h2, List.append_assoc]
    rfl
  have hcap : searchCap (cs "**User Message**:") (checkpointLines ts gen (some x) st) =
      some x := by
    unfold checkpointLines
    simp only [List.cons_append, List.nil_append]
    rw [searchCap_cons_none (splitAtFirst_none_of_not_contains (by decide))]
    rw [searchCap_cons_none (splitAtFirst_none_of_not_contains (by decide))]
    rw [searchCap_cons_none (splitAtFirst_none_of_not_contains hgen)]
    rw [searchCap_cons_none (splitAtFirst_none_of_not_contains hts)]
    rw [searchCap_cons_none (splitAtFirst_none_of_not_contains (by decide))]
    rw [searchCap_cons_none (splitAtFirst_none_of_not_contains (by decide))]
    rw [searchCap_cons_none (splitAtFirst_none_of_not_contains (by decide))]
    rw [searchCap_cons_none (splitAtFirst_none_of_not_contains (by decide))]
    rw [searchCap_cons_none (splitAtFirst_none_of_not_contains (by decide))]
    rw [hum, searchCap_cons_some (splitAtFirst_at_head _ _)]
    simp [capFrom, trimStr_cons_ws (show isWS ' ' = true from by decide), hx3,
      isEmpty_false_of_ne_nil hx1]
  simp [get_checkpoint_summary, hcap]

theorem c2_phase (ts gen : Str) (msg : Option Str) (st : ProgressState)
    (hpb : (trimStr st.current_phase).isEmpty = false) :
    spec_recordedPhase (checkpointLines ts gen msg st) = some st.current_phase := by
  unfold spec_recordedPhase checkpointLines
  simp only [List.cons_append, List.nil_append]
  rw [afterFirst_cons_ne (by decide)]
  rw [afterFirst_cons_ne (by decide)]
  rw [afterFirst_cons_ne (append_ne_of_head _ (by decide) (by decide))]
  rw [afterFirst_cons_ne (append_ne_of_head _ (by decide) (by decide))]
  rw [afterFirst_cons_ne (by decide)]
  rw [afterFirst_cons_ne (by decide)]
  rw [afterFirst_cons_ne (by decide)]
  rw [afterFirst_cons_ne (by decide)]
  rw [afterFirst_cons_ne (by decide)]
  rw [afterFirst_cons_ne (ne_of_head? (by rw [userMessageLine_head]; decide))]
  rw [afterFirst_cons_ne (by decide)]
  rw [afterFirst_cons_ne (by decide)]
  rw [afterFirst_cons_ne (by decide)]
  rw [afterFirst_cons_ne (by decide)]
  rw [afterFirst_cons_ne (by decide)]
  rw [afterFirst_cons_eq]
  simp only [Option.getD_some]
  rw [List.find?_cons_of_neg _ (by decide)]
  rw [List.find?_cons_of_pos _ (by simp [hpb])]

theorem c2_completions (ts gen : Str) (msg : Option Str) (st : ProgressState)
    (hp : st.current_phase = cs "Unknown" ∨
      (cs "### Phase ").isPrefixOf st.current_phase = true) :
    spec_recordedCompletions (checkpointLines ts gen msg st) = st.recent_completions := by
  unfold spec_recordedCompletions checkpointLines
  simp only [List.cons_append, List.nil_append, List.append_assoc]
  rw [afterFirst_cons_ne (by decide)]
  rw [afterFirst_cons_ne (by decide)]
  rw [afterFirst_cons_ne (append_ne_of_head _ (by decide) (by decide))]
  rw [afterFirst_cons_ne (append_ne_of_head _ (by decide) (by decide))]
  rw [afterFirst_cons_ne (by decide)]
  rw [afterFirst_cons_ne (by decide)]
  rw [afterFirst_cons_ne (by decide)]
  rw [afterFirst_cons_ne (by decide)]
  rw [afterFirst_cons_ne (by decide)]
  rw [afterFirst_cons_ne (ne_of_head? (by rw [userMessageLine_head]; decide))]
  rw [afterFirst_cons_ne (by decide)]
  rw [afterFirst_cons_ne (by decide)]
  rw [afterFirst_cons_ne (by decide)]
  rw [afterFirst_cons_ne (by decide)]
  rw [afterFirst_cons_ne (by decide)]
  rw [afterFirst_cons_ne (by decide)]
  rw [afterFirst_cons_ne (by decide)]
  rw [afterFirst_cons_ne (phase_ne_of_cases hp (by decide) (by decide))]
  rw [afterFirst_cons_ne (by decide)]
  rw [afterFirst_cons_eq]
  simp only [Option.getD_some]
  rw [beforeFirst_cons_ne (by decide)]
  cases hrc : st.recent_completions with
  | nil =>
    rw [show completionLines st = [cs "- (none found in progress.md)"] from by
      simp [completionLines, hrc]]
    simp only [List.cons_append, List.nil_append]
    rw [beforeFirst_cons_ne (by decide)]
    rw [beforeFirst_cons_ne (by decide)]
    rw [beforeFirst_cons_eq]
    decide
  | cons c t =>
    rw [show completionLines st = (c :: t).map (fun b => cs "- ✅ " ++ b) from by
      simp [completionLines, hrc]]
    rw [beforeFirst_append_of_ne (cs "### Active Blockers")
      ((c :: t).map (fun b => cs "- ✅ " ++ b)) _ (fun a ha => by
      simp only [List.mem_map] at ha
      obtain ⟨b, -, rfl⟩ := ha
      exact append_ne_of_head _ (by decide) (by decide))]
    rw [beforeFirst_cons_ne (by decide)]
    rw [beforeFirst_cons_eq]
    rw [filterMap_frame spec_completionRead (by decide), recover_completions]

theorem c2_blockers (ts gen : Str) (msg : Option Str) (st : ProgressState)
    (hp : st.current_phase = cs "Unknown" ∨
      (cs "### Phase ").isPrefixOf st.current_phase = true)
    (hbl : st.active_blockers.length ≤ 5) :
    spec_recordedBlockers (checkpointLines ts gen msg st) = st.active_blockers := by
  unfold spec_recordedBlockers checkpointLines
  simp only [List.cons_append, List.nil_append, List.append_assoc]
  rw [afterFirst_cons_ne (by decide)]
  rw [afterFirst_cons_ne (by decide)]
  rw [afterFirst_cons_ne (append_ne_of_head _ (by decide) (by decide))]
  rw [afterFirst_cons_ne (append_ne_of_head _ (by decide) (by decide))]
  rw [afterFirst_cons_ne (by decide)]
  rw [afterFirst_cons_ne (by decide)]
  rw [afterFirst_cons_ne (by decide)]
  rw [afterFirst_cons_ne (by decide)]
  rw [afterFirst_cons_ne (by decide)]
  rw [afterFirst_cons_ne (ne_of_head? (by rw [userMessageLine_head]; decide))]
  rw [afterFirst_cons_ne (by decide)]
  rw [afterFirst_cons_ne (by decide)]
  rw [afterFirst_cons_ne (by decide)]
  rw [afterFirst_cons_ne (by decide)]
  rw [afterFirst_cons_ne (by decide)]
  rw [afterFirst_cons_ne (by decide)]
  rw [afterFirst_cons_ne (by decide)]
  rw [afterFirst_cons_ne (phase_ne_of_cases hp (by decide) (by decide))]
  rw [afterFirst_cons_ne (by decide)]
  rw [afterFirst_cons_ne (by decide)]
  rw [afterFirst_cons_ne (by decide)]
  rw [afterFirst_append_of_ne (cs "### Active Blockers") (completionLines st) _ (fun a ha =>
    ne_of_head? (by rw [completionLines_head st a ha]; decide))]
  rw [afterFirst_cons_ne (by decide)]
  rw [afterFirst_cons_eq]
  simp only [Option.getD_some]
  exact blocker_region st hbl _


/-! ## Shared helper lemmas for the claims -/

theorem isEmpty_eq_true_iff {α : Type} {l : List α} : l.isEmpty = true ↔ l = [] := by
  cases l <;> simp

theorem ite_zero_one_eq_zero {c : Prop} [Decidable c] : (if c then 0 else 1 : Nat) = 0 ↔ c := by
  by_cases h : c <;> simp [h]

theorem ite_one_zero_eq_zero {c : Prop} [Decidable c] : (if c then 1 else 0 : Nat) = 0 ↔ ¬c := by
  by_cases h : c <;> simp [h]

/-- The lazy section regex `marker.*?^##` cannot match when no line after
the first marker line starts with `##`. -/
theorem sectionBody_none {m : Str} : ∀ {lines : List Str},
    noHeadingAfterFirst m lines = true → sectionBody m lines = none := by
  intro lines
  induction lines with
  | nil => intro _; rfl
  | cons l ls ih =>
    intro h
    unfold noHeadingAfterFirst at h
    unfold sectionBody
    by_cases hc : containsSub l m = true
    · rw [if_pos hc] at h ⊢
      have hfi : ls.findIdx? (fun x => (cs "##").isPrefixOf x) = none := by
        rw [List.findIdx?_eq_none_iff]
        intro x hx
        simpa using List.all_eq_true.1 h x hx
      rw [hfi]
    · rw [if_neg hc] at h ⊢
      exact ih h

/-- The directory state returned by `restore_checkpoint.py` `main` is
always the input directory state: restore never writes. -/
theorem restore_main_files (de lm : Bool) (files : List FsFile) (na : Option Str) :
    (restore_main de files lm na).2.2 = files := by
  unfold restore_main
  repeat' split
  all_goals rfl

theorem mem_insertDesc {a b : FsFile} {l : List FsFile} :
    b ∈ insertDesc a l ↔ b = a ∨ b ∈ l := by
  induction l with
  | nil => simp [insertDesc]
  | cons c t ih =>
    unfold insertDesc
    by_cases h : c.mtime < a.mtime
    · simp [h]
    · simp only [if_neg h, List.mem_cons, ih]
      tauto

theorem insertDesc_perm (a : FsFile) (l : List FsFile) :
    (insertDesc a l).Perm (a :: l) := by
  induction l with
  | nil => exact List.Perm.refl _
  | cons b t ih =>
    unfold insertDesc
    by_cases h : b.mtime < a.mtime
    · rw [if_pos h]
    · rw [if_neg h]
      exact (ih.cons b).trans (List.Perm.swap a b t)

theorem sortByMtimeDesc_perm (l : List FsFile) : (sortByMtimeDesc l).Perm l := by
  have h : ∀ (l2 acc : List FsFile),
      (l2.foldl (fun acc f => insertDesc f acc) acc).Perm (l2 ++ acc) := by
    intro l2
    induction l2 with
    | nil => intro acc; exact List.Perm.refl _
    | cons x t ih =>
      intro acc
      rw [List.foldl_cons]
      refine (ih (insertDesc x acc)).trans ?_
      refine (List.Perm.append_left t (insertDesc_perm x acc)).trans ?_
      exact List.perm_middle
  have h2 := h l []
  rw [List.append_nil] at h2
  exact h2

theorem insertDesc_pairwise {a : FsFile} {l : List FsFile}
    (h : l.Pairwise (fun x y => y.mtime ≤ x.mtime)) :
    (insertDesc a l).Pairwise (fun x y => y.mtime ≤ x.mtime) := by
  induction l with
  | nil => simp [insertDesc]
  | cons b t ih =>
    rw [List.pairwise_cons] at h
    unfold insertDesc
    by_cases hm : b.mtime < a.mtime
    · rw [if_pos hm]
      refine List.Pairwise.cons ?_ (List.Pairwise.cons h.1 h.2)
      intro y hy
      rcases List.mem_cons.1 hy with rfl | hy2
      · omega
      · have := h.1 y hy2
        omega
    · rw [if_neg hm]
      refine List.Pairwise.cons ?_ (ih h.2)
      intro y hy
      rcases mem_insertDesc.1 hy with rfl | hy2
      · omega
      · exact h.1 y hy2

theorem sortByMtimeDesc_pairwise (l : List FsFile) :
    (sortByMtimeDesc l).Pairwise (fun x y => y.mtime ≤ x.mtime) := by
  have h : ∀ (l2 acc : List FsFile), acc.Pairwise (fun x y => y.mtime ≤ x.mtime) →
      (l2.foldl (fun acc f => insertDesc f acc) acc).Pairwise
        (fun x y => y.mtime ≤ x.mtime) := by
    intro l2
    induction l2 with
    | nil => intro acc hacc; exact hacc
    | cons x t ih =>
      intro acc hacc
      rw [List.foldl_cons]
      exact ih _ (insertDesc_pairwise hacc)
  exact h l [] List.Pairwise.nil

theorem globCheckpoint_filename (ts : Str) :
    globCheckpoint (checkpoint_filename ts) = true := by
  unfold globCheckpoint checkpoint_filename
  rw [Bool.and_eq_true]
  constructor
  · exact List.isPrefixOf_iff_prefix.2 ⟨ts ++ cs ".md", (List.append_assoc _ _ _).symm⟩
  · unfold List.isSuffixOf
    apply List.isPrefixOf_iff_prefix.2
    rw [List.reverse_append]
    exact ⟨_, rfl⟩

/-- Restoring a freshly appended glob-matching checkpoint by its exact
name succeeds and writes nothing. -/
theorem restore_by_name (fs : List FsFile) (nf : FsFile)
    (hg : globCheckpoint nf.name = true) :
    restore_main true (fs ++ [nf]) false (some nf.name) = (0, some nf.name, fs ++ [nf]) := by
  have hmem : nf ∈ (fs ++ [nf]).filter (fun f => globCheckpoint f.name) :=
    List.mem_filter.2 ⟨by simp, hg⟩
  have hne : (fs ++ [nf]).filter (fun f => globCheckpoint f.name) ≠ [] := by
    intro h
    rw [h] at hmem
    exact List.not_mem_nil nf hmem
  have hany : (fs ++ [nf]).any (fun f => decide (f.name = nf.name)) = true :=
    List.any_eq_true.2 ⟨nf, by simp, by simp⟩
  cases hl : list_checkpoints true (fs ++ [nf]) with
  | nil =>
    exfalso
    unfold list_checkpoints at hl
    rw [if_pos rfl] at hl
    have hp := sortByMtimeDesc_perm ((fs ++ [nf]).filter (fun f => globCheckpoint f.name))
    rw [hl] at hp
    exact hne (List.perm_nil.1 hp.symm)
  | cons c rest =>
    simp [restore_main, hl, hany]

/-- The progress document used by the concrete checkpoint round trips. -/
def progressDocExample : List Str :=
  [cs "# Progress", cs "### Phase 2: Backend N️ IN PROGRESS (60%)",
   cs "## Dependencies & Blockers", cs "1. **DB migration**",
   cs "## Recent Completions", cs "- ✅ Login flow", cs "## Notes"]

def exTs : Str := cs "20260117_143022"

def exGen : Str := cs "2026-01-17 14:30:22"

/-- A bootstrap world with every prerequisite, critical file and
environment variable present but neither service binary built. -/
def bootstrapNoBinWorld : BootstrapWorld :=
  ⟨true, true, true, true, critical_files.map Prod.fst,
   critical_vars.map (fun nv => (nv.1, cs "value-123456")), false, false⟩

/-! ## The claims -/

/-- C1: the Consistency Engine exits 0 iff every extracted identifier
(route path, rule id, chain number) is documented in the matching
specification document; and a source tree with no `.route(` occurrence
contributes zero endpoints, hence zero endpoint issues, regardless of
how many endpoints the spec lists. -/
theorem claim_C1 (codeE specE codeR defR : List Str) (codeC : List Nat)
    (chains : Option Str) (files : List Str) :
    (verify_exit codeE specE codeR defR codeC chains = 0 ↔
      (∀ e ∈ codeE, e ∈ specE) ∧ (∀ r ∈ codeR, r ∈ defR) ∧
        (∀ n ∈ codeC, check_chain_documented n chains = true)) ∧
    ((∀ f ∈ files, containsSub f (cs ".route(") = false) →
      extract_code_endpoints_files files = [] ∧
      ((extract_code_endpoints_files files).dedup.filter
        (fun e => !decide (e ∈ specE))).length = 0) := by
  refine ⟨verify_exit_eq_zero_iff codeE specE codeR defR codeC chains, fun h => ?_⟩
  rw [extract_code_endpoints_files_nil h]
  exact ⟨rfl, rfl⟩

/-- C1 at a concrete input: one route-free source file, a spec with two
endpoints, zero endpoint issues. -/
theorem claim_C1_witness :
    extract_code_endpoints_files [cs "fn main() - no routes"] = [] ∧
    ((extract_code_endpoints_files [cs "fn main() - no routes"]).dedup.filter
      (fun e => !decide (e ∈ [cs "/health", cs "/api/oidc/token"]))).length = 0 :=
  (claim_C1 [] [cs "/health", cs "/api/oidc/token"] [] [] [] none
    [cs "fn main() - no routes"]).2 (by decide)

/-- C2 (corrected): for a nonempty single-line message `x` that strip
leaves unchanged, and headers whose Generated and Checkpoint ID lines do
not contain the literal `**User Message**:`, creating a checkpoint
appends `checkpoint_<ts>.md` with the rendered document, restoring it by
that exact name succeeds with exit 0 and writes nothing, the summary
message extracted from the document is `x`, and the ProgressState
recorded in the document equals the one computed from the progress
document at creation time.  The unconditional claim fails at `x = ""`
(see the counterexample): the empty string is falsy in Python and is
recorded as `(none provided)`. -/
theorem claim_C2 (fs : List FsFile) (ts gen x : Str) (now : Nat)
    (progress : Option (List Str))
    (hx1 : x ≠ []) (hx2 : '\n' ∉ x) (hx3 : trimStr x = x)
    (hgen : containsSub (cs "**Generated**: " ++ gen) (cs "**User Message**:") = false)
    (hts : containsSub (cs "**Checkpoint ID**: " ++ ts) (cs "**User Message**:") = false)
    (hfresh : ∀ f ∈ fs, f.name ≠ checkpoint_filename ts) :
    (generate_checkpoint fs ts gen now progress (some x)).1 =
      fs ++ [⟨checkpoint_filename ts, now,
        checkpointLines ts gen (some x) (read_progress progress)⟩] ∧
    (generate_checkpoint fs ts gen now progress (some x)).2 = checkpoint_filename ts ∧
    restore_main true (generate_checkpoint fs ts gen now progress (some x)).1 false
      (some (checkpoint_filename ts)) =
      (0, some (checkpoint_filename ts),
        (generate_checkpoint fs ts gen now progress (some x)).1) ∧
    (get_checkpoint_summary
      (checkpointLines ts gen (some x) (read_progress progress))).user_message = x ∧
    spec_recordedPhase (checkpointLines ts gen (some x) (read_progress progress)) =
      some (read_progress progress).current_phase ∧
    spec_recordedCompletions (checkpointLines ts gen (some x) (read_progress progress)) =
      (read_progress progress).recent_completions ∧
    spec_recordedBlockers (checkpointLines ts gen (some x) (read_progress progress)) =
      (read_progress progress).active_blockers := by
  have hanyf : fs.any (fun f => decide (f.name = checkpoint_filename ts)) = false := by
    rw [List.any_eq_false]
    intro f hf
    simpa using hfresh f hf
  have hmain : generate_checkpoint fs ts gen now progress (some x) =
      (fs ++ [⟨checkpoint_filename ts, now,
        checkpointLines ts gen (some x) (read_progress progress)⟩], checkpoint_filename ts) := by
    unfold generate_checkpoint writeFile
    simp [hanyf]
  refine ⟨by rw [hmain], by rw [hmain], ?_,
    c2_message ts gen x (read_progress progress) hx1 hx3 hgen hts,
    c2_phase ts gen (some x) (read_progress progress) (read_progress_phase_not_blank progress),
    c2_completions ts gen (some x) (read_progress progress)
      (read_progress_phase_cases progress),
    c2_blockers ts gen (some x) (read_progress progress)
      (read_progress_phase_cases progress) (read_progress_blockers_le progress)⟩
  rw [hmain]
  exact restore_by_name fs _ (globCheckpoint_filename ts)

/-- C2 at a concrete input: message `hi`, a progress document with one
phase, one blocker and one completion; every hypothesis holds and the
round trip recovers the message and the ProgressState. -/
theorem claim_C2_witness :
    ((cs "hi" : Str) ≠ [] ∧ '\n' ∉ (cs "hi" : Str) ∧ trimStr (cs "hi") = cs "hi" ∧
     containsSub (cs "**Generated**: " ++ exGen) (cs "**User Message**:") = false ∧
     containsSub (cs "**Checkpoint ID**: " ++ exTs) (cs "**User Message**:") = false ∧
     (∀ f ∈ ([] : List FsFile), f.name ≠ checkpoint_filename exTs)) ∧
    ((generate_checkpoint [] exTs exGen 7 (some progressDocExample) (some (cs "hi"))).1 =
      [] ++ [⟨checkpoint_filename exTs, 7,
        checkpointLines exTs exGen (some (cs "hi"))
          (read_progress (some progressDocExample))⟩] ∧
     (generate_checkpoint [] exTs exGen 7 (some progressDocExample)
        (some (cs "hi"))).2 = checkpoint_filename exTs ∧
     restore_main true
        (generate_checkpoint [] exTs exGen 7 (some progressDocExample)
          (some (cs "hi"))).1 false (some (checkpoint_filename exTs)) =
        (0, some (checkpoint_filename exTs),
          (generate_checkpoint [] exTs exGen 7 (some progressDocExample)
            (some (cs "hi"))).1) ∧
     (get_checkpoint_summary (checkpointLines exTs exGen (some (cs "hi"))
        (read_progress (some progressDocExample)))).user_message = cs "hi" ∧
     spec_recordedPhase (checkpointLines exTs exGen (some (cs "hi"))
        (read_progress (some progressDocExample))) =
        some (read_progress (some progressDocExample)).current_phase ∧
     spec_recordedCompletions (checkpointLines exTs exGen (some (cs "hi"))
        (read_progress (some progressDocExample))) =
        (read_progress (some progressDocExample)).recent_completions ∧
     spec_recordedBlockers (checkpointLines exTs exGen (some (cs "hi"))
        (read_progress (some progressDocExample))) =
        (read_progress (some progressDocExample)).active_blockers) :=
  ⟨⟨by decide, by decide, by decide, by decide, by decide, by decide⟩,
   claim_C2 [] exTs exGen (cs "hi") 7 (some progressDocExample) (by decide) (by decide)
     (by decide) (by decide) (by decide) (by decide)⟩

/-- C2 counterexample: with the empty message the document records
`(none provided)`, so the restored message is not the empty string the
claim promises for any `x`. -/
theorem claim_C2_counterexample :
    (get_checkpoint_summary (checkpointLines exTs exGen (some [])
      (read_progress (some progressDocExample)))).user_message =
      cs "(none provided)" ∧ cs "(none provided)" ≠ ([] : Str) := by
  decide

/-- C3 (corrected): the Bootstrap Verifier exits 0 iff the three
required prerequisites (cargo, node, python3) are present, no critical
file is missing, and no critical environment variable is missing or
empty; missing built binaries are warn-only and change the exit code
only when a `--fix` rebuild fails.  The original claim that missing
built artifacts force a non-zero exit is refuted by the
counterexample. -/
theorem claim_C3 (w : BootstrapWorld) :
    bootstrap_main w = 0 ↔
      w.cargoOk = true ∧ w.nodeOk = true ∧ w.python3Ok = true ∧
      (check_critical_files w.files).2 = [] ∧
      (check_environment_variables w.env).2 = [] ∧
      ¬(w.fixMode = true ∧ (check_built_binaries w.files).2 ≠ [] ∧ w.buildFails = true) := by
  rcases w with ⟨c, n, p, d, fl, ev, fm, bf⟩
  unfold bootstrap_main
  cases c <;> cases n <;> cases p <;> cases fm <;> cases bf <;>
    simp [ite_zero_one_eq_zero, ite_one_zero_eq_zero, isEmpty_eq_true_iff,
      List.length_eq_zero, Nat.add_eq_zero] <;> tauto

/-- C3 counterexample: every prerequisite, file and variable present,
both binaries absent, no fix mode: the binaries are reported missing yet
the exit code is 0. -/
theorem claim_C3_counterexample :
    (check_built_binaries bootstrapNoBinWorld.files).2 ≠ [] ∧
    bootstrap_main bootstrapNoBinWorld = 0 := by
  decide

/-- C4 (corrected): a found-list entry for a set sensitive variable
renders the value as its first 8 characters plus `...` when the value is
longer than 8 characters, and the rendered entry depends only on those
first 8 characters, so the remainder of the secret never reaches the
output.  Values of 8 or fewer characters render as `***` (see the
counterexample), not as the claimed first-8-plus-ellipsis. -/
theorem claim_C4 (name v : Str) (hs : isSensitiveName name = true) (hv : 8 < v.length) :
    envFoundEntry name v = name ++ cs "=" ++ (v.take 8 ++ cs "...") ∧
    (∀ w : Str, 8 < w.length → w.take 8 = v.take 8 →
      envFoundEntry name w = envFoundEntry name v) := by
  have h1 : ∀ u : Str, envFoundEntry name u = name ++ cs "=" ++ maskValue u := by
    intro u
    unfold envFoundEntry
    rw [if_pos hs]
  have h2 : maskValue v = v.take 8 ++ cs "..." := by
    unfold maskValue
    rw [if_pos hv]
  refine ⟨by rw [h1, h2, List.append_assoc], ?_⟩
  intro w hw he
  rw [h1, h1]
  unfold maskValue
  rw [if_pos hw, if_pos hv, he]

/-- C4 at a concrete input: the spec example
`SPOOKY_JWT_SECRET=abcdefghij12345` masks to the first 8 characters plus
an ellipsis. -/
theorem claim_C4_witness :
    (isSensitiveName (cs "SPOOKY_JWT_SECRET") = true ∧
     8 < (cs "abcdefghij12345").length) ∧
    (envFoundEntry (cs "SPOOKY_JWT_SECRET") (cs "abcdefghij12345") =
      cs "SPOOKY_JWT_SECRET" ++ cs "=" ++
        ((cs "abcdefghij12345").take 8 ++ cs "...") ∧
     ∀ w : Str, 8 < w.length → w.take 8 = (cs "abcdefghij12345").take 8 →
       envFoundEntry (cs "SPOOKY_JWT_SECRET") w =
         envFoundEntry (cs "SPOOKY_JWT_SECRET") (cs "abcdefghij12345")) :=
  ⟨⟨by decide, by decide⟩,
   claim_C4 (cs "SPOOKY_JWT_SECRET") (cs "abcdefghij12345") (by decide) (by decide)⟩

/-- C4 counterexample: a sensitive value of 8 or fewer characters is
rendered `***`, not as its first 8 characters plus an ellipsis. -/
theorem claim_C4_counterexample :
    isSensitiveName (cs "SPOOKY_JWT_SECRET") = true ∧
    envFoundEntry (cs "SPOOKY_JWT_SECRET") (cs "short") = cs "SPOOKY_JWT_SECRET=***" ∧
    envFoundEntry (cs "SPOOKY_JWT_SECRET") (cs "short") ≠
      cs "SPOOKY_JWT_SECRET=" ++ (cs "short").take 8 ++ cs "..." := by
  decide

/-- C5 (corrected): the per-line extractor of `check_rules.py` matches
exactly the word-bounded lexical pattern (a token is returned iff it has
the rule-id shape and occurs word-bounded); the extractor of
`verify_documentation.py` instead requires the literal `Rule ` before
the id and imposes no trailing word boundary, so the two
implementations do not match the same lexical pattern (see the
counterexample). -/
theorem claim_C5 (s t : Str) :
    (t ∈ extract_rules_from_code_line s ↔ boundedOcc s t) ∧
    (t ∈ extract_code_rules_content s ↔ prefixedOcc s t) :=
  ⟨extract_rules_from_code_line_iff s t, extract_code_rules_content_iff s t⟩

/-- C5 counterexample: `R-AUTH-001` occurs word-bounded in
`// R-AUTH-001` and is extracted by `check_rules.py`, but
`verify_documentation.py` extracts nothing from that text because the
literal `Rule ` prefix is absent. -/
theorem claim_C5_counterexample :
    boundedOcc (cs "// R-AUTH-001") (cs "R-AUTH-001") ∧
    cs "R-AUTH-001" ∈ extract_rules_from_code_line (cs "// R-AUTH-001") ∧
    cs "R-AUTH-001" ∉ extract_code_rules_content (cs "// R-AUTH-001") := by
  refine ⟨⟨by decide, cs "// ", [], by decide, by decide, by decide⟩, by decide, by decide⟩

/-- C6: restore with an absent directory fails with exit 1; restore
never writes (the directory state is returned unchanged); with no
checkpoint file in the directory restore fails with exit 1; otherwise a
given name is loaded exactly when present (failing with exit 1 when
absent), and without a name the head of the newest-first listing is
loaded. -/
theorem claim_C6 (files : List FsFile) (listMode : Bool) (nameArg : Option Str) (nm : Str) :
    restore_main false files listMode nameArg = (1, none, files) ∧
    (restore_main true files listMode nameArg).2.2 = files ∧
    (files.filter (fun f => globCheckpoint f.name) = [] →
      restore_main true files false nameArg = (1, none, files)) ∧
    (∀ c rest, list_checkpoints true files = c :: rest →
      (files.any (fun f => decide (f.name = nm)) = true →
        restore_main true files false (some nm) = (0, some nm, files)) ∧
      (files.any (fun f => decide (f.name = nm)) = false →
        restore_main true files false (some nm) = (1, none, files)) ∧
      restore_main true files false none = (0, some c.name, files)) := by
  refine ⟨by simp [restore_main], restore_main_files true listMode files nameArg, ?_, ?_⟩
  · intro h
    have hl : list_checkpoints true files = [] := by
      unfold list_checkpoints
      rw [if_pos rfl, h]
      rfl
    simp [restore_main, hl]
  · intro c rest hl
    exact ⟨fun ha => by simp [restore_main, hl, ha],
      fun ha => by simp [restore_main, hl, ha], by simp [restore_main, hl]⟩

/-- C6 at a concrete input: one checkpoint on disk, no name given, the
head of the listing is loaded with exit 0 and nothing is written. -/
theorem claim_C6_witness :
    restore_main true [⟨cs "checkpoint_a.md", 1, []⟩] false none =
      (0, some (cs "checkpoint_a.md"), [⟨cs "checkpoint_a.md", 1, []⟩]) :=
  ((claim_C6 [⟨cs "checkpoint_a.md", 1, []⟩] false none (cs "checkpoint_a.md")).2.2.2
    ⟨cs "checkpoint_a.md", 1, []⟩ [] (by decide)).2.2

/-- C7: the checkpoint listing is a permutation of the glob-matching
files sorted by modification time descending, and three checkpoints
created at increasing times t1 < t2 < t3 list as [t3, t2, t1]. -/
theorem claim_C7 (files : List FsFile) (f1 f2 f3 : FsFile) :
    (list_checkpoints true files).Perm (files.filter (fun f => globCheckpoint f.name)) ∧
    (list_checkpoints true files).Pairwise (fun a b => b.mtime ≤ a.mtime) ∧
    (f1.mtime < f2.mtime → f2.mtime < f3.mtime →
      globCheckpoint f1.name = true → globCheckpoint f2.name = true →
      globCheckpoint f3.name = true →
      list_checkpoints true [f1, f2, f3] = [f3, f2, f1]) := by
  refine ⟨sortByMtimeDesc_perm _, sortByMtimeDesc_pairwise _, ?_⟩
  intro h12 h23 g1 g2 g3
  have hf : [f1, f2, f3].filter (fun f => globCheckpoint f.name) = [f1, f2, f3] := by
    simp [List.filter, g1, g2, g3]
  show sortByMtimeDesc ([f1, f2, f3].filter (fun f => globCheckpoint f.name)) = _
  rw [hf]
  show insertDesc f3 (insertDesc f2 (insertDesc f1 [])) = [f3, f2, f1]
  have h1 : insertDesc f1 ([] : List FsFile) = [f1] := rfl
  have h2 : insertDesc f2 [f1] = [f2, f1] := by
    show (if f1.mtime < f2.mtime then f2 :: f1 :: [] else f1 :: insertDesc f2 []) = [f2, f1]
    rw [if_pos h12]
  have h3 : insertDesc f3 [f2, f1] = [f3, f2, f1] := by
    show (if f2.mtime < f3.mtime then f3 :: f2 :: [f1] else f2 :: insertDesc f3 [f1]) =
      [f3, f2, f1]
    rw [if_pos h23]
  rw [h1, h2, h3]

/-- C7 at a concrete input: checkpoints with modification times 1, 2, 3
list newest first. -/
theorem claim_C7_witness :
    list_checkpoints true
      [⟨cs "checkpoint_t1.md", 1, []⟩, ⟨cs "checkpoint_t2.md", 2, []⟩,
       ⟨cs "checkpoint_t3.md", 3, []⟩] =
      [⟨cs "checkpoint_t3.md", 3, []⟩, ⟨cs "checkpoint_t2.md", 2, []⟩,
       ⟨cs "checkpoint_t1.md", 1, []⟩] :=
  (claim_C7 [] ⟨cs "checkpoint_t1.md", 1, []⟩ ⟨cs "checkpoint_t2.md", 2, []⟩
    ⟨cs "checkpoint_t3.md", 3, []⟩).2.2 (by decide) (by decide) (by decide) (by decide)
    (by decide)

/-- C8 (corrected): list and restore never modify the directory, and
checkpoint creation preserves every existing file whose name differs
from `checkpoint_<ts>.md`.  Creation is not append-only: `write_text`
truncates, so a second create in the same timestamp second overwrites
the existing checkpoint in place (see the counterexample). -/
theorem claim_C8 (fs : List FsFile) (ts gen : Str) (now : Nat)
    (progress : Option (List Str)) (msg : Option Str) (f : FsFile)
    (hf : f ∈ fs) (hname : f.name ≠ checkpoint_filename ts) :
    f ∈ (generate_checkpoint fs ts gen now progress msg).1 ∧
    (∀ (de lm : Bool) (na : Option Str), (restore_main de fs lm na).2.2 = fs) := by
  refine ⟨?_, fun de lm na => restore_main_files de lm fs na⟩
  show f ∈ writeFile fs (checkpoint_filename ts) now
    (checkpointLines ts gen msg (read_progress progress))
  unfold writeFile
  split
  · exact List.mem_map.2 ⟨f, hf, if_neg hname⟩
  · exact List.mem_append.2 (Or.inl hf)

/-- C8 at a concrete input: a checkpoint with a different timestamp
survives a create unchanged, and restore writes nothing. -/
theorem claim_C8_witness :
    ((⟨cs "checkpoint_old.md", 1, [cs "old"]⟩ : FsFile) ∈
        ([⟨cs "checkpoint_old.md", 1, [cs "old"]⟩] : List FsFile) ∧
     (⟨cs "checkpoint_old.md", 1, [cs "old"]⟩ : FsFile).name ≠
        checkpoint_filename (cs "20260101_000000")) ∧
    ((⟨cs "checkpoint_old.md", 1, [cs "old"]⟩ : FsFile) ∈
      (generate_checkpoint [⟨cs "checkpoint_old.md", 1, [cs "old"]⟩]
        (cs "20260101_000000") (cs "g") 2 none none).1 ∧
     ∀ (de lm : Bool) (na : Option Str),
       (restore_main de [⟨cs "checkpoint_old.md", 1, [cs "old"]⟩] lm na).2.2 =
         [⟨cs "checkpoint_old.md", 1, [cs "old"]⟩]) :=
  ⟨⟨by decide, by decide⟩,
   claim_C8 [⟨cs "checkpoint_old.md", 1, [cs "old"]⟩] (cs "20260101_000000") (cs "g") 2
     none none ⟨cs "checkpoint_old.md", 1, [cs "old"]⟩ (by decide) (by decide)⟩

/-- C8 counterexample: two creates with the same timestamp second leave
one file, the second overwriting the content of the first in place. -/
theorem claim_C8_counterexample :
    ((generate_checkpoint
        (generate_checkpoint [] (cs "20260101_000000") (cs "g") 1 none
          (some (cs "one"))).1
        (cs "20260101_000000") (cs "g") 2 none (some (cs "two"))).1).length =
      ((generate_checkpoint [] (cs "20260101_000000") (cs "g") 1 none
        (some (cs "one"))).1).length ∧
    (generate_checkpoint
        (generate_checkpoint [] (cs "20260101_000000") (cs "g") 1 none
          (some (cs "one"))).1
        (cs "20260101_000000") (cs "g") 2 none (some (cs "two"))).1 ≠
      (generate_checkpoint [] (cs "20260101_000000") (cs "g") 1 none
        (some (cs "one"))).1 := by
  decide

/-- C9: in every report of the rule checker the valid and missing lists
partition the referenced rule ids (union is the referenced set,
intersection empty); and with code referencing `R-AUTH-001` and
`R-AUTH-002` while only `R-AUTH-001` is defined, the report lists
`R-AUTH-001` valid, `R-AUTH-002` missing, and exits 1. -/
theorem claim_C9 (codeFiles : List (List Str)) (rulesLines : List Str) :
    (∀ k, (k ∈ (check_rules_main codeFiles rulesLines).1 ∨
        k ∈ (check_rules_main codeFiles rulesLines).2.1) ↔ k ∈ code_rule_keys codeFiles) ∧
    (∀ k, ¬(k ∈ (check_rules_main codeFiles rulesLines).1 ∧
        k ∈ (check_rules_main codeFiles rulesLines).2.1)) ∧
    check_rules_main [[cs "// enforce R-AUTH-001 and R-AUTH-002"]]
      [cs "### Rule R-AUTH-001: First rule"] =
      ([cs "R-AUTH-001"], [cs "R-AUTH-002"], 1) := by
  have hck : check_rules_main codeFiles rulesLines =
      ((code_rule_keys codeFiles).filter (fun k =>
          decide (k ∈ (extract_defined_rules_lines rulesLines).map Prod.fst)),
       (code_rule_keys codeFiles).filter (fun k =>
          !decide (k ∈ (extract_defined_rules_lines rulesLines).map Prod.fst)),
       if ((code_rule_keys codeFiles).filter (fun k =>
          !decide (k ∈ (extract_defined_rules_lines rulesLines).map Prod.fst))).isEmpty
       then 0 else 1) := rfl
  refine ⟨fun k => ?_, fun k => ?_, by decide⟩
  · rw [hck]
    simp only [List.mem_filter]
    constructor
    · rintro (h | h) <;> exact h.1
    · intro hk
      by_cases hd : k ∈ (extract_defined_rules_lines rulesLines).map Prod.fst
      · exact Or.inl ⟨hk, by simpa using hd⟩
      · exact Or.inr ⟨hk, by simpa using hd⟩
  · rw [hck]
    simp only [List.mem_filter]
    rintro ⟨⟨-, h1⟩, -, h2⟩
    simp [h1] at h2

/-- C10 (implicit): each of the blockers and completions sections is
only recognized when a later line starts with `##`; whenever no such
line follows a section marker, the lazy span `marker.*?^##` cannot
match and the corresponding extracted list is empty even when the
section holds well-formed items — per section, independently of the
other section. -/
theorem claim_C10 (lines : List Str) :
    (noHeadingAfterFirst (cs "## Dependencies & Blockers") lines = true →
      (read_progress_md lines).active_blockers = []) ∧
    (noHeadingAfterFirst (cs "## Recent Completions") lines = true →
      (read_progress_md lines).recent_completions = []) := by
  constructor
  · intro hb
    unfold read_progress_md
    rw [sectionBody_none hb]
    rfl
  · intro hc
    unfold read_progress_md
    rw [sectionBody_none hc]
    rfl

/-- C10 at a concrete input: the blockers section is last (no `##` line
follows it) while the completions section is terminated by the blockers
heading; the blockers list is empty despite its well-formed item, and
the completions list is still extracted. -/
theorem claim_C10_witness :
    (noHeadingAfterFirst (cs "## Dependencies & Blockers")
        [cs "## Recent Completions", cs "- ✅ x",
         cs "## Dependencies & Blockers", cs "1. **B**"] = true ∧
     noHeadingAfterFirst (cs "## Recent Completions")
        [cs "## Recent Completions", cs "- ✅ x",
         cs "## Dependencies & Blockers", cs "1. **B**"] = false ∧
     blockerItem (cs "1. **B**") = some (cs "B") ∧
     (read_progress_md
        [cs "## Recent Completions", cs "- ✅ x",
         cs "## Dependencies & Blockers", cs "1. **B**"]).recent_completions = [cs "x"]) ∧
    (read_progress_md
        [cs "## Recent Completions", cs "- ✅ x",
         cs "## Dependencies & Blockers", cs "1. **B**"]).active_blockers = [] :=
  ⟨⟨by decide, by decide, by decide, by decide⟩,
   (claim_C10 [cs "## Recent Completions", cs "- ✅ x",
      cs "## Dependencies & Blockers", cs "1. **B**"]).1 (by decide)⟩

end Multipass
